import Mathlib

/-!
Verification development for the paged storage core of the `db` repository
(`src/db/src/db.rs`).  The Rust code is shallowly embedded: the memory map
is a function from page ids to a record holding the union of the fields of
the page kinds (meta words, table-page fields, data-page fields, index-page
fields), machine integers are `Nat` with explicit sentinels, fallible code
returns `Except`/`Option`, and loops whose termination depends on on-disk
link structure take a fuel argument.

Items of the repository that are not under `src/` (the `physics` crate's
constants and page initializers, and `record_iter`) are modelled from the
specification; each such definition carries a doc comment starting with
`Modelled from the spec:`.
-/

deriving instance DecidableEq for Except

namespace DbSpec

/-- `!0` as a `u32`: the sentinel for "none" used for page links. -/
def NONE32 : Nat := 4294967295

/-- `!0` as a `u32`, used as the "word is full" test in the slot bitmap. -/
def wordFull : Nat := 4294967295

/-- `!0` as a `u8`: the sentinel for "no foreign reference" in `ColInfo`. -/
def NONE8 : Nat := 255

/-- Page size `P` in bytes (`PAGE_SIZE`).
Modelled from the spec: "Page size: compile-time constant P (8 KiB recommended)". -/
def PAGE_SIZE : Nat := 8192

/-- Modelled from the spec: "`table_num`: number of live tables (≤ MAX_TABLE, e.g. 32)". -/
def MAX_TABLE : Nat := 32

/-- Modelled from the spec: bound on a table name's byte length; the value is not
given by the spec, only that names have bounded length. -/
def MAX_TABLE_NAME : Nat := 64

/-- Modelled from the spec: `cols[MAX_COL]`; the value is not given by the spec. -/
def MAX_COL : Nat := 32

/-- Modelled from the spec: bound on a column name's byte length; value not given. -/
def MAX_COL_NAME : Nat := 64

/-- Modelled from the spec: the minimum slot size to which a row record size is
clamped ("clamped to at least a minimum slot size"); value not given. -/
def MIN_SLOT_SIZE : Nat := 4

/-- Modelled from the spec: the byte size of the data-page header used in
`cap = floor((P − data-page-header) / size)`; value not given. -/
def DATA_HEADER : Nat := 64

/-- Modelled from the spec: "A fixed magic tag identifying the file format and
version"; the concrete bytes are not given, only that they are a fixed
non-trivial string (so a zeroed page does not match). -/
def MAGIC : List Nat := [77, 68, 66, 49]

/-- Pointwise update of a function map, used for the page memory. -/
def upd {α : Type} (m : Nat → α) (i : Nat) (v : α) : Nat → α :=
  fun n => if n = i then v else m n

theorem upd_same {α : Type} (m : Nat → α) (i : Nat) (v : α) : upd m i v i = v := by
  simp [upd]

theorem upd_ne {α : Type} (m : Nat → α) (i : Nat) (v : α) {n : Nat} (h : n ≠ i) :
    upd m i v n = m n := by
  simp [upd, h]

/-! ## Data model -/

/-- `common::BareTy`. -/
inductive BareTy
  | Int | Bool | Float | Date | VarChar | Char
deriving DecidableEq, Repr

/-- `common::ColTy`: a bare type together with its declared size
(meaningful for `Char`/`VarChar`). -/
structure ColTy where
  ty : BareTy
  size : Nat
deriving DecidableEq, Repr

/-- Storage size of a column type.
Modelled from the spec: "Int/Float/Date = 4, Bool = 1, Char(n) = n, VarChar(n) = 4+n"
(`ColTy::size()` lives in the `common` crate, outside `src/`). -/
def ColTy.bsize (t : ColTy) : Nat :=
  match t.ty with
  | .Int => 4
  | .Float => 4
  | .Date => 4
  | .Bool => 1
  | .Char => t.size
  | .VarChar => 4 + t.size

/-- Whether the type requires 4-byte alignment.
Modelled from the spec: "Columns requiring 4-byte alignment (Int, Float, Date;
the VarChar length prefix)" (`ColTy::align4()` lives outside `src/`). -/
def ColTy.align4 (t : ColTy) : Bool :=
  match t.ty with
  | .Int => true
  | .Float => true
  | .Date => true
  | .VarChar => true
  | .Bool => false
  | .Char => false

/-- `physics::ColInfo`: one column of a table-meta page.  The flag set
NOTNULL/PRIMARY/UNIQUE is unfolded into three booleans. -/
structure ColInfo where
  ty : ColTy
  off : Nat
  /-- page id of the column's index root, `NONE32` for none. -/
  index : Nat
  name : String
  notnull : Bool
  primary : Bool
  unique : Bool
  /-- referenced table slot (`u8`), `NONE8` for none. -/
  foreignTable : Nat
  foreignCol : Nat
deriving DecidableEq, Repr

def defCI : ColInfo :=
  { ty := ⟨.Int, 0⟩, off := 0, index := NONE32, name := "", notnull := false,
    primary := false, unique := false, foreignTable := NONE8, foreignCol := 0 }

/-- `physics::TableInfo`: one entry of the meta page's table directory. -/
structure TableInfo where
  meta : Nat
  name : String
deriving DecidableEq, Repr

def defTI : TableInfo := { meta := 0, name := "" }

/-- The union of the on-page layouts.  `prev`/`next` are the first two words of
table pages and data pages ("both TablePage and DataPage use [1] as next,
[0] as prev"); `prev` doubles as the intrusive free-list link, since
`deallocate_page` writes the next free page id into the first word. -/
structure Page where
  prev : Nat
  next : Nat
  -- table-page fields
  cols : Nat → ColInfo
  colNum : Nat
  size : Nat
  cap : Nat
  /-- head of the table's has-free-slot chain, `NONE32` for none. -/
  tFirstFree : Nat
  -- data-page fields
  nextFree : Nat
  used : Nat → Nat
  count : Nat
  -- index-page fields
  leaf : Bool
  icount : Nat
  ichildren : Nat → Nat

def defPage : Page :=
  { prev := 0, next := 0, cols := fun _ => defCI, colNum := 0, size := 0, cap := 0,
    tFirstFree := NONE32, nextFree := NONE32, used := fun _ => 0, count := 0,
    leaf := true, icount := 0, ichildren := fun _ => 0 }

/-- The database state: the fields of `Db` plus the meta page (page 0) pulled
out into `firstFree`/`tableNum`/`tables`, and the remaining page memory. -/
structure Db where
  pages : Nat
  firstFree : Nat
  tableNum : Nat
  tables : Nat → TableInfo
  mem : Nat → Page

/-- A row id: `(page, slot)`. -/
structure Rid where
  page : Nat
  slot : Nat
deriving DecidableEq, Repr

/-- `common::Error`, restricted to the variants reachable from the embedded
operations. -/
inductive Err
  | InvalidSize (n : Nat)
  | InvalidMagic (m : List Nat)
  | TableExhausted
  | TableNameTooLong (s : String)
  | DupTable (s : String)
  | ColTooMany (n : Nat)
  | DupCol (s : String)
  | ColNameTooLong (s : String)
  | NoSuchCol (s : String)
  | NoSuchTable (s : String)
  | ForeignKeyOnNonUnique (s : String)
  | IncompatibleForeignTy (foreign own : ColTy)
  | ColSizeTooBig (n : Nat)
  | DropTableWithForeignLink (s : String)
  | NoSuchIndex (s : String)
  | DupIndex (s : String)
  | DropIndexOnUnique (s : String)
  | CreateIndexOnNonEmpty (s : String)
deriving DecidableEq, Repr

/-- `syntax::ast::ColDecl`. -/
structure ColDecl where
  name : String
  ty : ColTy
  notnull : Bool
deriving DecidableEq, Repr

/-- `syntax::ast::TableConsKind`. -/
inductive TableConsKind
  | Primary
  | Foreign (table col : String)
deriving DecidableEq, Repr

/-- `syntax::ast::TableCons`. -/
structure TableCons where
  name : String
  kind : TableConsKind
deriving DecidableEq, Repr

/-- `syntax::ast::CreateTable`. -/
structure CreateTable where
  name : String
  cols : List ColDecl
  cons : List TableCons
deriving DecidableEq, Repr

/-! ## Pager -/

/-- `Db::create`: the state of a freshly created database file.  The meta page
is zero-initialized with `first_free = none`, `table_num = 0`, `pages = 1`
(`DbPage::init` lives in `physics`; modelled from the spec's `create(path)`
contract). -/
def dbNew : Db :=
  { pages := 1, firstFree := NONE32, tableNum := 0,
    tables := fun _ => defTI, mem := fun _ => defPage }

/-- `Db::open`, abstracted over the two facts it reads from the file: its byte
length and the magic bytes at the start of the meta page.  Returns the computed
page count. -/
def openDb (len : Nat) (magic : List Nat) : Except Err Nat :=
  if len = 0 ∨ len % PAGE_SIZE ≠ 0 then .error (.InvalidSize len)
  else if magic ≠ MAGIC then .error (.InvalidMagic magic)
  else .ok (len / PAGE_SIZE)

/-- `Db::allocate_page`: pop the free list if non-empty (the first word of a
free page — field `prev` — holds the link to the next free page), otherwise
extend the file by one page.  The returned page keeps its previous bytes. -/
def allocatePage (db : Db) : Nat × Db :=
  if db.firstFree ≠ NONE32 then
    (db.firstFree, { db with firstFree := (db.mem db.firstFree).prev })
  else
    (db.pages, { db with pages := db.pages + 1 })

/-- `Db::deallocate_page`: write the current `first_free` into the first word
of the page, then make the page the new head. -/
def deallocatePage (db : Db) (page : Nat) : Db :=
  { db with mem := upd db.mem page { db.mem page with prev := db.firstFree },
            firstFree := page }

/-- The free-page list read off the state: walk `firstFree` through the first
word of each free page, with fuel. -/
def freeListN (db : Db) : Nat → List Nat
  | 0 => []
  | fuel + 1 =>
    if db.firstFree = NONE32 then []
    else db.firstFree ::
      freeListN { db with firstFree := (db.mem db.firstFree).prev } fuel

/-! ## Catalog lookups -/

/-- The live table names (`DbPage::names()` iterates the live prefix). -/
def tableNames (db : Db) : List String :=
  (List.range db.tableNum).map (fun i => (db.tables i).name)

/-- `Db::get_ti`, returning the slot index of the first live table with the
given name. -/
def getTiIdx (db : Db) (table : String) : Option Nat :=
  (List.range db.tableNum).find? (fun i => (db.tables i).name == table)

/-- `TablePage::get_ci`, returning the index of the first live column with the
given name on the table page. -/
def colIdxIn (pg : Page) (col : String) : Option Nat :=
  (List.range pg.colNum).find? (fun j => (pg.cols j).name == col)

/-- `Db::get_ci`: look the table up in the meta page, then the column on its
table-meta page. -/
def getCi (db : Db) (table col : String) : Except Err ColInfo :=
  match getTiIdx db table with
  | none => .error (.NoSuchTable table)
  | some i =>
    let tp := db.mem (db.tables i).meta
    match colIdxIn tp col with
    | none => .error (.NoSuchCol col)
    | some j => .ok (tp.cols j)

/-! ## create_table -/

/-- The foreign-key type compatibility rule of `create_table` (the `match` on
`(f_ty.ty, ty.ty)` at src/db/src/db.rs:75-79): both string types with own
size ≥ foreign size, or the same primitive type on both sides. -/
def compatTy (fTy ownTy : ColTy) : Bool :=
  match fTy.ty, ownTy.ty with
  | .Char, .Char => fTy.size ≤ ownTy.size
  | .Char, .VarChar => fTy.size ≤ ownTy.size
  | .VarChar, .Char => fTy.size ≤ ownTy.size
  | .VarChar, .VarChar => fTy.size ≤ ownTy.size
  | .Int, .Int => true
  | .Bool, .Bool => true
  | .Float, .Float => true
  | .Date, .Date => true
  | _, _ => false

/-- The validation of one `Foreign { table, col }` constraint
(src/db/src/db.rs:70-79): resolve the referenced column, require UNIQUE,
require type compatibility. -/
def checkForeign (db : Db) (ownTy : ColTy) (ftable fcol : String) : Except Err Unit :=
  match getCi db ftable fcol with
  | .error e => .error e
  | .ok ci =>
    if ci.unique = false then .error (.ForeignKeyOnNonUnique fcol)
    else if compatTy ci.ty ownTy then .ok ()
    else .error (.IncompatibleForeignTy ci.ty ownTy)

/-- The per-column validation loop (src/db/src/db.rs:57-61): duplicate names
and over-long names, with the seen-set built incrementally. -/
def checkCols : List ColDecl → List String → Except Err Unit
  | [], _ => .ok ()
  | co :: rest, seen =>
    if seen.contains co.name then .error (.DupCol co.name)
    else if MAX_COL_NAME ≤ co.name.length then .error (.ColNameTooLong co.name)
    else checkCols rest (seen ++ [co.name])

/-- Index of a constraint's column among the declared columns (the `IndexSet`
lookup `cols.get_full(cons.name)`; column names are distinct at this point, so
this is the position in the declaration list). -/
def colDeclIdx (cols : List ColDecl) (name : String) : Option Nat :=
  cols.findIdx? (fun co => co.name == name)

/-- The constraint validation loop (src/db/src/db.rs:64-83); returns the
primary-constraint count. -/
def validateCons (db : Db) (cols : List ColDecl) : List TableCons → Nat → Except Err Nat
  | [], cnt => .ok cnt
  | cons :: rest, cnt =>
    match colDeclIdx cols cons.name with
    | none => .error (.NoSuchCol cons.name)
    | some idx =>
      match cons.kind with
      | .Primary => validateCons db cols rest (cnt + 1)
      | .Foreign t c =>
        match checkForeign db (cols.getD idx ⟨"", ⟨.Int, 0⟩, false⟩).ty t c with
        | .error e => .error e
        | .ok _ => validateCons db cols rest cnt

/-- Size of the null bitset: `(col_num + 31) / 32 * 4` bytes. -/
def nullBitset (n : Nat) : Nat := (n + 31) / 32 * 4

/-- `(size + 3) & !3` on a `u16`: rounding up to a multiple of 4 (the values
involved stay far below `2^16`, where the bit mask and the arithmetic form
agree). -/
def alignUp4 (n : Nat) : Nat := (n + 3) / 4 * 4

/-- The size-validation loop (src/db/src/db.rs:86-92): starting from the null
bitset, add each column's storage size and check against `MAX_DATA_BYTE` after
each addition; finally align up to 4 and check once more.  Note that, unlike
the layout loop below, this loop does not align the running size before
4-byte-aligned columns. -/
def sizeValidateAux (maxDataByte : Nat) : List ColTy → Nat → Except Err Nat
  | [], size =>
    let size := alignUp4 size
    if maxDataByte < size then .error (.ColSizeTooBig size) else .ok size
  | t :: rest, size =>
    let size := size + t.bsize
    if maxDataByte < size then .error (.ColSizeTooBig size)
    else sizeValidateAux maxDataByte rest size

def sizeValidate (maxDataByte : Nat) (cols : List ColTy) : Except Err Nat :=
  sizeValidateAux maxDataByte cols (nullBitset cols.length)

/-- The layout loop (src/db/src/db.rs:98-111): the running size is aligned up
to 4 before each column whose type requires 4-byte alignment; returns the
column offsets and the running size before the final alignment. -/
def layoutSizes : List ColTy → Nat → List Nat × Nat
  | [], size => ([], size)
  | t :: rest, size =>
    let size := if t.align4 then alignUp4 size else size
    let (offs, fin) := layoutSizes rest (size + t.bsize)
    (size :: offs, fin)

/-- Offsets assigned by the layout loop. -/
def layoutOffs (cols : List ColTy) : List Nat :=
  (layoutSizes cols (nullBitset cols.length)).1

/-- The final record size computed by the layout loop (before the
`MIN_SLOT_SIZE` clamp): the running size aligned up to 4. -/
def layoutSize (cols : List ColTy) : Nat :=
  alignUp4 (layoutSizes cols (nullBitset cols.length)).2

/-- Replace the column info at position `j` of a table page. -/
def updCol (pg : Page) (j : Nat) (ci : ColInfo) : Page :=
  { pg with cols := upd pg.cols j ci }

/-- Writing one column info (src/db/src/db.rs:101-108).  Only the fields the
code assigns are written: `ty`, `off`, `index := !0`, the name, the NOTNULL
flag, `foreign_table := !0`.  The PRIMARY and UNIQUE flag bits and
`foreign_col` keep whatever the reused page held (`flags.set(NOTNULL, _)`
touches a single bit and allocated pages are not zeroed). -/
def writeCol (pg : Page) (j : Nat) (co : ColDecl) (off : Nat) : Page :=
  updCol pg j
    { pg.cols j with ty := co.ty, off := off, index := NONE32,
                     name := co.name, notnull := co.notnull,
                     foreignTable := NONE8 }

def writeColsAux (pg : Page) : List ColDecl → List Nat → Nat → Page
  | [], _, _ => pg
  | co :: rest, offs, j =>
    writeColsAux (writeCol pg j co (offs.getD 0 0)) rest (offs.drop 1) (j + 1)

/-- `TablePage::init(id, size, col_num)`.
Modelled from the spec: sets the row size (already clamped by the caller),
`cap = floor((P − data-page-header) / size)`, `first_free = none`, and the
ring `prev = next = self`. -/
def tpInit (pg : Page) (id size colNum : Nat) : Page :=
  { pg with size := size, cap := (PAGE_SIZE - DATA_HEADER) / size,
            colNum := colNum, tFirstFree := NONE32, prev := id, next := id }

/-- The constraint-application loop (src/db/src/db.rs:115-134), run on table
page `id`.  `primaryCnt` is the count from validation. -/
def applyCons (db : Db) (id : Nat) (cols : List ColDecl) (primaryCnt : Nat) :
    List TableCons → Db
  | [] => db
  | cons :: rest =>
    let idx := (colDeclIdx cols cons.name).getD 0
    let db :=
      match cons.kind with
      | .Primary =>
        let pg := db.mem id
        let ci := pg.cols idx
        let ci := { ci with primary := true, notnull := true,
                            unique := if primaryCnt = 1 then true else ci.unique }
        { db with mem := upd db.mem id (updCol pg idx ci) }
      | .Foreign t c =>
        let fTiIdx := (getTiIdx db t).getD 0
        let fTp := db.mem (db.tables fTiIdx).meta
        let fCiIdx := (colIdxIn fTp c).getD 0
        let pg := db.mem id
        let ci := { pg.cols idx with foreignTable := fTiIdx, foreignCol := fCiIdx }
        { db with mem := upd db.mem id (updCol pg idx ci) }
    applyCons db id cols primaryCnt rest

/-- `Db::create_index_impl` (src/db/src/db.rs:202-206): allocate one page, set
the column's index root to it, initialize it as a leaf root.
(`IndexPage::init` lives in `physics`; modelled from the spec: "Allocate one
page, initialize as a leaf root".) -/
def createIndexImpl (db : Db) (tpId colIdx : Nat) : Db :=
  let (iid, db) := allocatePage db
  let pg := db.mem tpId
  let db := { db with
    mem := upd db.mem tpId (updCol pg colIdx { pg.cols colIdx with index := iid }) }
  { db with mem := upd db.mem iid { db.mem iid with leaf := true, icount := 0 } }

/-- The closing loop of `create_table` (src/db/src/db.rs:143-148): create an
index for every column carrying UNIQUE. -/
def createUniqueIdx (db : Db) (id : Nat) : Nat → Nat → Db
  | _, 0 => db
  | k, rest + 1 =>
    let db := if ((db.mem id).cols k).unique then createIndexImpl db id k else db
    createUniqueIdx db id (k + 1) rest

/-- The commit phase of `create_table` (src/db/src/db.rs:97-148), run after all
validation has passed. -/
def commitTable (db : Db) (c : CreateTable) (primaryCnt : Nat) : Db :=
  let (id, db) := allocatePage db
  let tys := c.cols.map (fun co => co.ty)
  let pg := writeColsAux (db.mem id) c.cols (layoutOffs tys) 0
  let pg := tpInit pg id (max (layoutSize tys) MIN_SLOT_SIZE) c.cols.length
  let db := { db with mem := upd db.mem id pg }
  let db := applyCons db id c.cols primaryCnt c.cons
  let db := { db with
    tables := upd db.tables db.tableNum { meta := id, name := c.name },
    tableNum := db.tableNum + 1 }
  createUniqueIdx db id 0 (db.mem id).colNum

/-- `Db::create_table` (src/db/src/db.rs:47-151).  `maxDataByte` stands for
the repo constant `MAX_DATA_BYTE` (defined in `physics`, outside `src/`, with
no value given by the spec).  The state is threaded explicitly: every error
return happens with the state component equal to the input state, mirroring
the position of the early returns in the source. -/
def createTable (maxDataByte : Nat) (db : Db) (c : CreateTable) :
    Except Err Unit × Db :=
  if db.tableNum = MAX_TABLE then (.error .TableExhausted, db)
  else if MAX_TABLE_NAME ≤ c.name.length then (.error (.TableNameTooLong c.name), db)
  else if (tableNames db).contains c.name then (.error (.DupTable c.name), db)
  else if MAX_COL ≤ c.cols.length then (.error (.ColTooMany c.cols.length), db)
  else match checkCols c.cols [] with
  | .error e => (.error e, db)
  | .ok _ =>
    match validateCons db c.cols c.cons 0 with
    | .error e => (.error e, db)
    | .ok cnt =>
      match sizeValidate maxDataByte (c.cols.map (fun co => co.ty)) with
      | .error e => (.error e, db)
      | .ok _ => (.ok (), commitTable db c cnt)

/-! ## drop_table / index operations -/

/-- The foreign-link scan of `drop_table` (src/db/src/db.rs:157-165): does any
column of any live table (including the table being dropped) reference
table-slot `idx`? -/
def foreignLinked (db : Db) (idx : Nat) : Bool :=
  (List.range db.tableNum).any (fun i =>
    let tp := db.mem (db.tables i).meta
    (List.range tp.colNum).any (fun j => (tp.cols j).foreignTable == idx))

/-- Swap two entries of the meta page's table directory. -/
def swapTables (db : Db) (i j : Nat) : Db :=
  let ti := db.tables i
  let tj := db.tables j
  { db with tables := upd (upd db.tables i tj) j ti }

/-- The depth-first page free of `drop_index_impl` (src/db/src/db.rs:218-229):
recurse into the children of internal nodes, then deallocate the node.  Fuel
bounds the recursion; `none` models a malformed tree on which the source would
not terminate. -/
def dfsDealloc (fuel : Nat) (db : Db) (page : Nat) : Option Db :=
  match fuel with
  | 0 => none
  | fuel + 1 =>
    let ip := db.mem page
    let db :=
      if ip.leaf then some db
      else dfsChildren fuel db ip 0 ip.icount
    db.map (fun db => deallocatePage db page)
where
  /-- the `for i in 0..ip.count` loop over an internal node's children. -/
  dfsChildren (fuel : Nat) (db : Db) (ip : Page) : Nat → Nat → Option Db
    | _, 0 => some db
    | i, rest + 1 =>
      match dfsDealloc fuel db (ip.ichildren i) with
      | none => none
      | some db => dfsChildren fuel db ip (i + 1) rest

/-- `Db::drop_index_impl` applied to the column `colIdx` of table page
`tpMeta`: free the index subtree, then set `ci.index = !0`. -/
def dropIndexImpl (fuel : Nat) (db : Db) (tpMeta colIdx : Nat) : Option Db :=
  match dfsDealloc fuel db ((db.mem tpMeta).cols colIdx).index with
  | none => none
  | some db =>
    let pg := db.mem tpMeta
    some { db with
      mem := upd db.mem tpMeta
        (updCol pg colIdx { pg.cols colIdx with index := NONE32 }) }

/-- The index-dropping loop of `drop_table` (src/db/src/db.rs:170-175). -/
def dropIndicesLoop (fuel : Nat) (db : Db) (tpMeta : Nat) : Nat → Nat → Option Db
  | _, 0 => some db
  | i, rest + 1 =>
    let step :=
      if ((db.mem tpMeta).cols i).index ≠ NONE32 then dropIndexImpl fuel db tpMeta i
      else some db
    match step with
    | none => none
    | some db => dropIndicesLoop fuel db tpMeta (i + 1) rest

/-- The ring-deallocation loop of `drop_table` (src/db/src/db.rs:176-183):
starting from `cur`, read the page's second word (`next`), deallocate the
page, advance, and stop as soon as the cursor equals the table-meta page id.
The loop body runs at least once. -/
def ringDealloc (db : Db) (cur meta : Nat) : Nat → Option Db
  | 0 => none
  | fuel + 1 =>
    let nxt := (db.mem cur).next
    let db := deallocatePage db cur
    if nxt = meta then some db else ringDealloc db nxt meta fuel

/-- `Db::drop_table` (src/db/src/db.rs:153-186). -/
def dropTable (db : Db) (name : String) (fuel : Nat) :
    Option (Except Err Unit × Db) :=
  match getTiIdx db name with
  | none => some (.error (.NoSuchTable name), db)
  | some idx =>
    if foreignLinked db idx then some (.error (.DropTableWithForeignLink name), db)
    else
      let meta := (db.tables idx).meta
      let db := swapTables db idx (db.tableNum - 1)
      let db := { db with tableNum := db.tableNum - 1 }
      match dropIndicesLoop fuel db meta 0 (db.mem meta).colNum with
      | none => none
      | some db =>
        match ringDealloc db (db.mem meta).next meta fuel with
        | none => none
        | some db => some (.ok (), db)

/-- One data page's contribution to `record_iter`: the number of set bits in
the `used[]` words covering the `cap` slots. -/
def pageBits (pg : Page) (cap : Nat) : Nat :=
  ((List.range ((cap + 31) / 32)).map
    (fun i => (List.range 32).countP (fun b => (pg.used i).testBit b))).sum

/-- `Db::record_iter(tp).count()`.
Modelled from the spec: `record_iter` "yields Rids by traversing the ring and,
on each page, enumerating set bits in `used[]`" (its implementation is outside
`src/`).  Walks the data-page ring of table page `tpId` with fuel. -/
def recordCount (db : Db) (tpId : Nat) (fuel : Nat) : Option Nat :=
  go ((db.mem tpId).next) 0 fuel
where
  go (cur acc : Nat) : Nat → Option Nat
    | 0 => none
    | fuel + 1 =>
      if cur = tpId then some acc
      else go ((db.mem cur).next) (acc + pageBits (db.mem cur) (db.mem tpId).cap) fuel

/-- `Db::create_index` (src/db/src/db.rs:190-200).  Note the order: the
emptiness check runs before the column lookup. -/
def createIndex (db : Db) (table col : String) (fuel : Nat) :
    Option (Except Err Unit × Db) :=
  match getTiIdx db table with
  | none => some (.error (.NoSuchTable table), db)
  | some i =>
    let tpId := (db.tables i).meta
    match recordCount db tpId fuel with
    | none => none
    | some n =>
      if n ≠ 0 then some (.error (.CreateIndexOnNonEmpty table), db)
      else
        match colIdxIn (db.mem tpId) col with
        | none => some (.error (.NoSuchCol col), db)
        | some j =>
          if ((db.mem tpId).cols j).index ≠ NONE32 then
            some (.error (.DupIndex col), db)
          else some (.ok (), createIndexImpl db tpId j)

/-- `Db::drop_index` (src/db/src/db.rs:208-216). -/
def dropIndex (db : Db) (table col : String) (fuel : Nat) :
    Option (Except Err Unit × Db) :=
  match getTiIdx db table with
  | none => some (.error (.NoSuchTable table), db)
  | some i =>
    let tpMeta := (db.tables i).meta
    match colIdxIn (db.mem tpMeta) col with
    | none => some (.error (.NoSuchCol col), db)
    | some j =>
      let ci := (db.mem tpMeta).cols j
      if ci.index = NONE32 then some (.error (.NoSuchIndex col), db)
      else if ci.unique then some (.error (.DropIndexOnUnique col), db)
      else
        match dropIndexImpl fuel db tpMeta j with
        | none => none
        | some db => some (.ok (), db)

/-! ## Data-slot operations -/

/-- Number of bitmap words covering `cap` slots: `(cap + 31) / 32`. -/
def bsWords (cap : Nat) : Nat := (cap + 31) / 32

/-- The inner bit scan of `allocate_data_slot`: the lowest clear bit of a
word, scanning `b` upward with `n` bits remaining. -/
def findBitAux (x : Nat) : Nat → Nat → Option Nat
  | _, 0 => none
  | b, n + 1 => if x.testBit b then findBitAux x (b + 1) n else some b

/-- The word scan of `allocate_data_slot` (src/db/src/db.rs:305-317): find the
first word that is not `!0` and take its lowest clear bit.  `none` corresponds
to leaving the loop with the slot uninitialized (the `debug_unreachable!` /
undefined path of the source). -/
def findSlotAux (used : Nat → Nat) : Nat → Nat → Option Nat
  | _, 0 => none
  | i, w + 1 =>
    if used i = wordFull then findSlotAux used (i + 1) w
    else
      match findBitAux (used i) 0 32 with
      | some b => some (32 * i + b)
      | none => none

/-- Growing a table's data-page ring (src/db/src/db.rs:295-299): allocate a
page, initialize it, and make it the head of the has-free chain.
`DataPage::init(prev, next)` lives in `physics`; modelled from the spec:
"allocate a data page, link it at the ring's tail (`prev`)" with a zeroed
occupancy bitmap, `count = 0` and no has-free successor. -/
def expandTable (db : Db) (tpId : Nat) : Db :=
  let tp := db.mem tpId
  let (id, db) := allocatePage db
  let tail := tp.prev
  let newPg := { db.mem id with prev := tail, next := tpId, nextFree := NONE32,
                                count := 0, used := fun _ => 0 }
  let db := { db with mem := upd db.mem id newPg }
  let db := { db with mem := upd db.mem tail { db.mem tail with next := id } }
  let db := { db with mem := upd db.mem tpId { db.mem tpId with prev := id } }
  { db with mem := upd db.mem tpId { db.mem tpId with tFirstFree := id } }

/-- The slot-taking part of `allocate_data_slot` (src/db/src/db.rs:300-322):
scan the head of the has-free chain for the lowest clear bit, set it, bump
`count`, and unlink the page from the chain when it becomes full. -/
def fillSlot (db : Db) (tpId : Nat) : Option (Db × Rid) :=
  let tp := db.mem tpId
  let fp := tp.tFirstFree
  let dp := db.mem fp
  match findSlotAux dp.used 0 (bsWords tp.cap) with
  | none => none
  | some s =>
    let dp := { dp with
      used := upd dp.used (s / 32) (dp.used (s / 32) ||| (1 <<< (s % 32))),
      count := dp.count + 1 }
    let db := { db with mem := upd db.mem fp dp }
    let db :=
      if dp.count = tp.cap then
        { db with mem := upd db.mem tpId { db.mem tpId with tFirstFree := dp.nextFree } }
      else db
    some (db, ⟨fp, s⟩)

/-- `Db::allocate_data_slot` (src/db/src/db.rs:293-323). -/
def allocateDataSlot (db : Db) (tpId : Nat) : Option (Db × Rid) :=
  let db := if (db.mem tpId).tFirstFree = NONE32 then expandTable db tpId else db
  fillSlot db tpId

/-- `Db::deallocate_data_slot` (src/db/src/db.rs:325-336): clear the slot's
bit (`none` models the `debug_assert` that it was set), re-link the page onto
the has-free chain if it was full, and decrement `count`. -/
def deallocateDataSlot (db : Db) (tpId : Nat) (rid : Rid) : Option Db :=
  let page := rid.page
  let slot := rid.slot
  let dp := db.mem page
  if ((dp.used (slot / 32)).testBit (slot % 32)) = false then none
  else
    let cleared := dp.used (slot / 32) &&& (wordFull ^^^ (1 <<< (slot % 32)))
    let dp1 := { dp with used := upd dp.used (slot / 32) cleared }
    let db := { db with mem := upd db.mem page dp1 }
    let db :=
      if dp.count = (db.mem tpId).cap then
        let dp2 := { db.mem page with nextFree := (db.mem tpId).tFirstFree }
        let db := { db with mem := upd db.mem page dp2 }
        { db with mem := upd db.mem tpId { db.mem tpId with tFirstFree := page } }
      else db
    let dp3 := { db.mem page with count := (db.mem page).count - 1 }
    some { db with mem := upd db.mem page dp3 }

/-! ## Concrete states used by the closed theorems -/

/-- A concrete value for the repo constant `MAX_DATA_BYTE`, used by the
concrete scenarios (any value large enough for an 8-byte row works). -/
def MDB : Nat := 8000

/-- `CREATE TABLE t(a INT NOT NULL)`. -/
def tSpec : CreateTable :=
  { name := "t", cols := [{ name := "a", ty := ⟨.Int, 0⟩, notnull := true }], cons := [] }

/-- The fresh database with table `t` created: table-meta page 1. -/
def dbT : Db := (createTable MDB dbNew tSpec).2

/-- `dbT` after one `allocate_data_slot` on table page 1: data page 2 holds
one live row at slot 0. -/
def dbT1 : Db := ((allocateDataSlot dbT 1).map (fun r => r.1)).getD dbNew

/-- `CREATE TABLE parent(pk INT, PRIMARY KEY pk)` on the fresh db. -/
def parentSpec : CreateTable :=
  { name := "parent", cols := [{ name := "pk", ty := ⟨.Int, 0⟩, notnull := false }],
    cons := [{ name := "pk", kind := .Primary }] }

def dbParent : Db := (createTable MDB dbNew parentSpec).2

/-- `CREATE TABLE child(fk FLOAT, FOREIGN KEY fk REFERENCES parent(pk))`. -/
def childSpec : CreateTable :=
  { name := "child", cols := [{ name := "fk", ty := ⟨.Float, 0⟩, notnull := false }],
    cons := [{ name := "fk", kind := .Foreign "parent" "pk" }] }

/-- A table spec with the same column named twice in a `Primary` constraint. -/
def dupPrimarySpec : CreateTable :=
  { name := "t", cols := [{ name := "a", ty := ⟨.Int, 0⟩, notnull := false }],
    cons := [{ name := "a", kind := .Primary }, { name := "a", kind := .Primary }] }

/-- The column list `[Bool, Int, Bool, Int]` on which the unaligned validation
total (14, aligned 16) differs from the aligned layout total (20). -/
def bugCols : List ColTy := [⟨.Bool, 0⟩, ⟨.Int, 0⟩, ⟨.Bool, 0⟩, ⟨.Int, 0⟩]

/-- `CREATE TABLE t(a BOOL, b INT, c BOOL, d INT)`. -/
def bugSpec : CreateTable :=
  { name := "t",
    cols := [{ name := "a", ty := ⟨.Bool, 0⟩, notnull := false },
             { name := "b", ty := ⟨.Int, 0⟩, notnull := false },
             { name := "c", ty := ⟨.Bool, 0⟩, notnull := false },
             { name := "d", ty := ⟨.Int, 0⟩, notnull := false }],
    cons := [] }

/-- Repeated allocation, used to phrase the free-list scenarios: returns the
allocated page ids in order. -/
def allocSeq (db : Db) : Nat → List Nat × Db
  | 0 => ([], db)
  | n + 1 =>
    let (id, db) := allocatePage db
    let (l, db) := allocSeq db n
    (id :: l, db)

/-! ## C1 -/

/-- C1: for every call to `create_table`, `drop_table`, `create_index` or
`drop_index` that returns an error, the database state equals the state before
the call: every error return occurs before any page mutation (the state
component carried alongside the error is the unchanged input state). -/
theorem c1_errors_leave_state_unchanged :
    (∀ mdb db c e db2, createTable mdb db c = (.error e, db2) → db2 = db) ∧
    (∀ db name fuel e db2, dropTable db name fuel = some (.error e, db2) → db2 = db) ∧
    (∀ db table col fuel e db2,
      createIndex db table col fuel = some (.error e, db2) → db2 = db) ∧
    (∀ db table col fuel e db2,
      dropIndex db table col fuel = some (.error e, db2) → db2 = db) := by
  refine ⟨?_, ?_, ?_, ?_⟩
  · intro mdb db c e db2 h
    unfold createTable at h
    repeat' (first | split at h | simp only [] at h)
    all_goals simp_all
  · intro db name fuel e db2 h
    unfold dropTable at h
    repeat' (first | split at h | simp only [] at h)
    all_goals simp_all
  · intro db table col fuel e db2 h
    unfold createIndex at h
    repeat' (first | split at h | simp only [] at h)
    all_goals simp_all
  · intro db table col fuel e db2 h
    unfold dropIndex at h
    repeat' (first | split at h | simp only [] at h)
    all_goals simp_all

/-- Witness for C1: four concrete erroring calls, each leaving the state
untouched. -/
theorem c1_errors_leave_state_unchanged_witness :
    (createTable MDB dbNew { name := "t", cols := [⟨"a", ⟨.Int, 0⟩, false⟩,
        ⟨"a", ⟨.Int, 0⟩, false⟩], cons := [] }).2 = dbNew ∧
    ((dropTable dbNew "t" 5).getD (.ok (), dbT)).2 = dbNew ∧
    ((createIndex dbNew "t" "a" 5).getD (.ok (), dbT)).2 = dbNew ∧
    ((dropIndex dbNew "t" "a" 5).getD (.ok (), dbT)).2 = dbNew := by
  refine ⟨?_, ?_, ?_, ?_⟩
  · exact c1_errors_leave_state_unchanged.1 MDB dbNew
      { name := "t", cols := [⟨"a", ⟨.Int, 0⟩, false⟩, ⟨"a", ⟨.Int, 0⟩, false⟩],
        cons := [] } (.DupCol "a") _ (by rfl)
  · exact c1_errors_leave_state_unchanged.2.1 dbNew "t" 5 (.NoSuchTable "t") _ (by rfl)
  · exact c1_errors_leave_state_unchanged.2.2.1 dbNew "t" "a" 5 (.NoSuchTable "t") _ (by rfl)
  · exact c1_errors_leave_state_unchanged.2.2.2 dbNew "t" "a" 5 (.NoSuchTable "t") _ (by rfl)

/-! ## C2 -/

/-- C2 (failing run): dropping table `t`, which owns table-meta page 1 and the
single data page 2, succeeds — but the free-page list afterwards is exactly
`[2]`: every data page of the ring was deallocated, yet the table-meta page 1
itself was never pushed onto the free list, because the ring walk at
src/db/src/db.rs:176-183 breaks as soon as the cursor returns to the
table-meta page, after deallocating only the data pages.  The claim (and the
spec) require the table-meta page to be deallocated last. -/
theorem c2_drop_table_leaks_table_meta_page :
    (allocateDataSlot dbT 1).map (fun r => r.2) = some ⟨2, 0⟩ ∧
    freeListN dbT 10 = [] ∧
    ((allocateDataSlot dbT 1).bind (fun r => dropTable r.1 "t" 20)).map
        (fun s => (s.1, s.2.tableNum, freeListN s.2 10)) =
      some (.ok (), 0, [2]) := by
  refine ⟨by decide, by decide, by decide⟩

/-- C2 (empty-ring contrast): dropping a table with no data pages does
deallocate the table-meta page (the loop body runs once with the cursor
already equal to the meta page). -/
theorem c2_empty_table_frees_meta_page :
    (dropTable dbT "t" 20).map (fun s => (s.1, freeListN s.2 10)) =
      some (.ok (), [1]) := by decide

/-! ## C3 -/

/-- C3 (failing run): on `[Bool, Int, Bool, Int]` with `MAX_DATA_BYTE = 16`
the validation loop (src/db/src/db.rs:86-92), which skips the pre-column
alignment, computes 14 and accepts with aligned total 16, while the layout
loop (src/db/src/db.rs:98-111) aligns before each Int and commits a per-row
size of 20 > 16.  `create_table` therefore succeeds — no `ColSizeTooBig` — and
commits a row size exceeding `MAX_DATA_BYTE`, although the claim (and the
code's own comment "the size is calculated in the same way as below") require
the aligned computation to be the one checked. -/
theorem c3_size_validation_misses_alignment :
    sizeValidate 16 bugCols = .ok 16 ∧
    layoutSize bugCols = 20 ∧
    (createTable 16 dbNew bugSpec).1 = .ok () ∧
    ((createTable 16 dbNew bugSpec).2.mem 1).size = 20 := by
  refine ⟨by decide, by decide, by decide, by decide⟩

/-! ## C5 -/

/-- C5: the free-page list is LIFO.  `deallocate_page` writes the old
`first_free` into the first word of the page and makes the page the new head;
`allocate_page` pops the head when the list is non-empty and extends the file
otherwise; allocating right after deallocating returns the same page; and the
concrete scenario from a fresh db (allocate 5, deallocate 3, 2, 4) yields the
next three allocations 4, 2, 3. -/
theorem c5_free_list_lifo :
    (∀ db id, (deallocatePage db id).firstFree = id ∧
      ((deallocatePage db id).mem id).prev = db.firstFree) ∧
    (∀ db, db.firstFree ≠ NONE32 →
      (allocatePage db).1 = db.firstFree ∧
      (allocatePage db).2.firstFree = (db.mem db.firstFree).prev) ∧
    (∀ db, db.firstFree = NONE32 →
      (allocatePage db).1 = db.pages ∧ (allocatePage db).2.pages = db.pages + 1) ∧
    (∀ db id, id ≠ NONE32 → (allocatePage (deallocatePage db id)).1 = id) ∧
    ((allocSeq dbNew 5).1 = [1, 2, 3, 4, 5] ∧
      (allocSeq (deallocatePage (deallocatePage (deallocatePage
        (allocSeq dbNew 5).2 3) 2) 4) 3).1 = [4, 2, 3]) := by
  refine ⟨?_, ?_, ?_, ?_, by decide, by decide⟩
  · intro db id
    constructor
    · simp [deallocatePage]
    · simp [deallocatePage, upd_same]
  · intro db h
    simp [allocatePage, h]
  · intro db h
    simp [allocatePage, h]
  · intro db id h
    simp [allocatePage, deallocatePage, upd_same, h]

/-- Witness for C5's hypothesis-bearing conjuncts, at the fresh db and page 1. -/
theorem c5_free_list_lifo_witness :
    (allocatePage (deallocatePage dbNew 1)).1 = 1 ∧
    (allocatePage dbT).1 = dbT.pages := by
  constructor
  · exact c5_free_list_lifo.2.2.2.1 dbNew 1 (by decide)
  · exact (c5_free_list_lifo.2.2.1 dbT (by decide)).1

/-! ## C7 -/

/-- C7: `open` fails `InvalidSize` exactly when the length is zero or not a
multiple of the page size; fails `InvalidMagic` when the length is a positive
multiple but the magic differs; and otherwise succeeds with
`pages = len / P`. -/
theorem c7_open_characterization (len : Nat) (magic : List Nat) :
    (openDb len magic = .error (.InvalidSize len) ↔ len = 0 ∨ len % PAGE_SIZE ≠ 0) ∧
    (len ≠ 0 → len % PAGE_SIZE = 0 → magic ≠ MAGIC →
      openDb len magic = .error (.InvalidMagic magic)) ∧
    (len ≠ 0 → len % PAGE_SIZE = 0 → magic = MAGIC →
      openDb len magic = .ok (len / PAGE_SIZE)) := by
  refine ⟨?_, ?_, ?_⟩
  · unfold openDb
    split
    · simp_all
    · split <;> simp_all
  · intro h1 h2 h3
    unfold openDb
    simp_all
  · intro h1 h2 h3
    unfold openDb
    simp_all

/-- Witness for C7: 128 zero bytes give `InvalidSize`, one zeroed page gives
`InvalidMagic`, and two well-formed pages open with `pages = 2`. -/
theorem c7_open_characterization_witness :
    openDb 128 [0, 0, 0, 0] = .error (.InvalidSize 128) ∧
    openDb 8192 [0, 0, 0, 0] = .error (.InvalidMagic [0, 0, 0, 0]) ∧
    openDb 16384 MAGIC = .ok 2 := by
  refine ⟨?_, ?_, ?_⟩
  · exact (c7_open_characterization 128 [0, 0, 0, 0]).1.mpr (by decide)
  · exact (c7_open_characterization 8192 [0, 0, 0, 0]).2.1 (by decide) (by decide) (by decide)
  · have h := (c7_open_characterization 16384 MAGIC).2.2 (by decide) (by decide) rfl
    simpa using h

/-! ## C9 -/

/-- C9: when the table exists and holds at least one live row, `create_index`
returns `CreateIndexOnNonEmpty` regardless of the column argument — the
emptiness check (src/db/src/db.rs:194) runs before the column lookup. -/
theorem c9_nonempty_check_precedes_column_lookup
    (db : Db) (table col : String) (fuel i n : Nat)
    (hti : getTiIdx db table = some i)
    (hc : recordCount db (db.tables i).meta fuel = some n)
    (hn : n ≠ 0) :
    createIndex db table col fuel = some (.error (.CreateIndexOnNonEmpty table), db) := by
  unfold createIndex
  rw [hti]
  simp only [hc]
  simp [hn]

/-- Witness for C9: on `dbT1` (table `t` with one live row), creating an index
on a column name that does not even exist reports `CreateIndexOnNonEmpty`. -/
theorem c9_nonempty_check_precedes_column_lookup_witness :
    createIndex dbT1 "t" "nosuch" 20 =
      some (.error (.CreateIndexOnNonEmpty "t"), dbT1) := by
  exact c9_nonempty_check_precedes_column_lookup dbT1 "t" "nosuch" 20 0 1
    (by decide) (by decide) (by decide)

/-! ## C10 -/

/-- The page id `allocate_page` hands out on a given state. -/
def allocTarget (db : Db) : Nat :=
  if db.firstFree ≠ NONE32 then db.firstFree else db.pages

/-- C10: `create_table` accepts a specification with zero columns: with a
fresh valid name, an empty column list and no constraints it returns `Ok`,
the null bitset occupies zero bytes, and the committed per-slot size is the
clamp value `MIN_SLOT_SIZE`. -/
theorem c10_zero_columns_accepted (mdb : Nat) (db : Db) (name : String)
    (h1 : db.tableNum ≠ MAX_TABLE)
    (h2 : name.length < MAX_TABLE_NAME)
    (h3 : ¬ name ∈ tableNames db) :
    (createTable mdb db { name := name, cols := [], cons := [] }).1 = .ok () ∧
    nullBitset 0 = 0 ∧
    ((createTable mdb db { name := name, cols := [], cons := [] }).2.mem
        (allocTarget db)).size = MIN_SLOT_SIZE := by
  have hname : ¬ MAX_TABLE_NAME ≤ name.length := by omega
  refine ⟨?_, by decide, ?_⟩
  · unfold createTable
    simp [h1, hname, h3, MAX_COL, checkCols, validateCons, sizeValidate,
      sizeValidateAux, nullBitset, alignUp4]
  · unfold createTable
    by_cases hf : db.firstFree = NONE32 <;>
      simp [h1, hname, h3, hf, MAX_COL, checkCols, validateCons, sizeValidate,
        sizeValidateAux, nullBitset, alignUp4, commitTable, allocatePage, allocTarget,
        layoutOffs, layoutSize, layoutSizes, writeColsAux, tpInit, applyCons,
        createUniqueIdx, upd, MIN_SLOT_SIZE]

/-- Witness for C10: the empty-column table on the fresh database. -/
theorem c10_zero_columns_accepted_witness :
    (createTable MDB dbNew { name := "e", cols := [], cons := [] }).1 = .ok () ∧
    nullBitset 0 = 0 ∧
    ((createTable MDB dbNew { name := "e", cols := [], cons := [] }).2.mem
        (allocTarget dbNew)).size = MIN_SLOT_SIZE := by
  exact c10_zero_columns_accepted MDB dbNew "e" (by decide) (by decide) (by simp [tableNames, dbNew])

/-! ## C6 -/

/-- A string type: `Char` or `VarChar`. -/
def stringTy (t : BareTy) : Prop := t = .Char ∨ t = .VarChar

/-- A primitive type: `Int`, `Bool`, `Float` or `Date`. -/
def primTy (t : BareTy) : Prop := t = .Int ∨ t = .Bool ∨ t = .Float ∨ t = .Date

instance (t : BareTy) : Decidable (stringTy t) := by unfold stringTy; infer_instance

instance (t : BareTy) : Decidable (primTy t) := by unfold primTy; infer_instance

/-- The compatibility rule exactly as the claim words it: both string types
with own size ≥ foreign size, or both types merely *among*
Int/Bool/Float/Date (mixing allowed). -/
def claimForeignCompat (own foreign : ColTy) : Prop :=
  (stringTy own.ty ∧ stringTy foreign.ty ∧ foreign.size ≤ own.size) ∨
  (primTy own.ty ∧ primTy foreign.ty)

/-- The amended compatibility rule: both string types with own size ≥ foreign
size, or the *same* primitive type on both sides. -/
def amendedForeignCompat (own foreign : ColTy) : Prop :=
  (stringTy own.ty ∧ stringTy foreign.ty ∧ foreign.size ≤ own.size) ∨
  (own.ty = foreign.ty ∧ primTy own.ty)

instance claimForeignCompatDec (a b : ColTy) : Decidable (claimForeignCompat a b) := by
  unfold claimForeignCompat; infer_instance

instance amendedForeignCompatDec (a b : ColTy) : Decidable (amendedForeignCompat a b) := by
  unfold amendedForeignCompat; infer_instance

/-- C6 (counterexample): `parent(pk INT PRIMARY KEY)` with a child column of
type `FLOAT` referencing `pk`.  Both types are among Int/Bool/Float/Date, so
the claim's rule declares the pair compatible and the constraint accepted —
but `create_table` (the `match` at src/db/src/db.rs:75-79, which pairs the
primitive types diagonally) rejects it with `IncompatibleForeignTy`. -/
theorem c6_claim_counterexample :
    claimForeignCompat ⟨.Float, 0⟩ ⟨.Int, 0⟩ ∧
    (getCi dbParent "parent" "pk").map (fun ci => ci.unique) = .ok true ∧
    (createTable MDB dbParent childSpec).1 =
      .error (.IncompatibleForeignTy ⟨.Int, 0⟩ ⟨.Float, 0⟩) := by
  refine ⟨by decide, by decide, by decide⟩

/-- The code compatibility test agrees with the amended rule. -/
theorem compatTy_iff_amended (fTy ownTy : ColTy) :
    compatTy fTy ownTy = true ↔ amendedForeignCompat ownTy fTy := by
  obtain ⟨ft, fs⟩ := fTy
  obtain ⟨ot, os⟩ := ownTy
  cases ft <;> cases ot <;>
    simp [compatTy, amendedForeignCompat, stringTy, primTy]

/-- C6 (amended): a `Foreign{table, col}` constraint with own type `ownTy`
passes `create_table`'s foreign validation exactly when the referenced column
resolves, carries UNIQUE, and the types are compatible — with compatibility
meaning: both string types with own size ≥ foreign size, or both the *same*
primitive type; the error otherwise is `IncompatibleForeignTy`, a non-UNIQUE
target gives `ForeignKeyOnNonUnique`, and a failed lookup propagates
`NoSuchTable`/`NoSuchCol`. -/
theorem c6_amended_foreign_rule (db : Db) (ownTy : ColTy) (t c : String) :
    (checkForeign db ownTy t c = .ok () ↔
      ∃ ci, getCi db t c = .ok ci ∧ ci.unique = true ∧ amendedForeignCompat ownTy ci.ty) ∧
    (∀ ci, getCi db t c = .ok ci → ci.unique = true → ¬ amendedForeignCompat ownTy ci.ty →
      checkForeign db ownTy t c = .error (.IncompatibleForeignTy ci.ty ownTy)) ∧
    (∀ ci, getCi db t c = .ok ci → ci.unique = false →
      checkForeign db ownTy t c = .error (.ForeignKeyOnNonUnique c)) ∧
    (∀ e, getCi db t c = .error e → checkForeign db ownTy t c = .error e) := by
  have hchk : ∀ r, getCi db t c = r → checkForeign db ownTy t c =
      (match r with
       | .error e => .error e
       | .ok ci =>
         if ci.unique = false then .error (.ForeignKeyOnNonUnique c)
         else if compatTy ci.ty ownTy then .ok ()
         else .error (.IncompatibleForeignTy ci.ty ownTy)) := by
    intro r hr
    unfold checkForeign
    rw [hr]
  rcases hg : getCi db t c with e | ci
  · have hcf := hchk (.error e) hg
    refine ⟨?_, ?_, ?_, ?_⟩
    · rw [hcf]
      constructor
      · intro h
        exact absurd h (by simp)
      · rintro ⟨ci, hci, -, -⟩
        exact absurd hci (by simp)
    · intro ci hci
      exact absurd hci (by simp)
    · intro ci hci
      exact absurd hci (by simp)
    · intro e2 he
      injection he with h
      rw [hcf, h]
  · by_cases hu : ci.unique = true
    · by_cases hcmp : compatTy ci.ty ownTy = true
      · have hcf : checkForeign db ownTy t c = .ok () := by
          rw [hchk (.ok ci) hg]
          simp [hu, hcmp]
        refine ⟨?_, ?_, ?_, ?_⟩
        · rw [hcf]
          exact iff_of_true rfl ⟨ci, rfl, hu, (compatTy_iff_amended ci.ty ownTy).mp hcmp⟩
        · intro ci2 hci2 hu2 hcmp2
          injection hci2 with h2
          subst h2
          exact absurd ((compatTy_iff_amended ci.ty ownTy).mp hcmp) hcmp2
        · intro ci2 hci2 hu2
          injection hci2 with h2
          subst h2
          rw [hu] at hu2
          exact absurd hu2 (by simp)
        · intro e2 he
          exact absurd he (by simp)
      · have hcf : checkForeign db ownTy t c =
            .error (.IncompatibleForeignTy ci.ty ownTy) := by
          rw [hchk (.ok ci) hg]
          simp [hu, hcmp]
        refine ⟨?_, ?_, ?_, ?_⟩
        · rw [hcf]
          constructor
          · intro h
            exact absurd h (by simp)
          · rintro ⟨ci2, hci2, hu2, hcmp2⟩
            injection hci2 with h2
            subst h2
            exact absurd ((compatTy_iff_amended ci.ty ownTy).mpr hcmp2) hcmp
        · intro ci2 hci2 hu2 hcmp2
          injection hci2 with h2
          subst h2
          exact hcf
        · intro ci2 hci2 hu2
          injection hci2 with h2
          subst h2
          rw [hu] at hu2
          exact absurd hu2 (by simp)
        · intro e2 he
          exact absurd he (by simp)
    · have hu2 : ci.unique = false := by
        cases h : ci.unique
        · rfl
        · exact absurd h hu
      have hcf : checkForeign db ownTy t c = .error (.ForeignKeyOnNonUnique c) := by
        rw [hchk (.ok ci) hg]
        simp [hu2]
      refine ⟨?_, ?_, ?_, ?_⟩
      · rw [hcf]
        constructor
        · intro h
          exact absurd h (by simp)
        · rintro ⟨ci2, hci2, hu3, -⟩
          injection hci2 with h2
          subst h2
          exact (hu hu3).elim
      · intro ci2 hci2 hu3 hcmp2
        injection hci2 with h2
        subst h2
        exact absurd hu3 hu
      · intro ci2 hci2 hu3
        exact hcf
      · intro e2 he
        exact absurd he (by simp)

/-- Witness for C6's amended theorem: the `CHAR(10)`/`VARCHAR(10)` pair is
accepted against the parent `pk CHAR(10)` analogue, here exercised with the
integer parent and an `INT` child column. -/
theorem c6_amended_foreign_rule_witness :
    checkForeign dbParent ⟨.Int, 0⟩ "parent" "pk" = .ok () ∧
    checkForeign dbParent ⟨.Float, 0⟩ "parent" "pk" =
      .error (.IncompatibleForeignTy ⟨.Int, 0⟩ ⟨.Float, 0⟩) := by
  constructor
  · exact (c6_amended_foreign_rule dbParent ⟨.Int, 0⟩ "parent" "pk").1.mpr
      ⟨⟨⟨.Int, 0⟩, 4, 2, "pk", true, true, true, NONE8, 0⟩, by decide, rfl, by decide⟩
  · exact (c6_amended_foreign_rule dbParent ⟨.Float, 0⟩ "parent" "pk").2.1
      ⟨⟨.Int, 0⟩, 4, 2, "pk", true, true, true, NONE8, 0⟩ (by decide) rfl (by decide)

/-! ## C4 (counterexample) -/

/-- C4 (counterexample): `CREATE TABLE t(a INT, PRIMARY KEY a, PRIMARY KEY a)`
succeeds and leaves exactly one primary column, but that solitary primary
column does not carry UNIQUE and gets no index: the code keys the UNIQUE
decision on the count of `Primary` *constraints* (`primary_cnt == 1` at
src/db/src/db.rs:122), not on the number of distinct primary columns. -/
theorem c4_claim_counterexample :
    (createTable MDB dbNew dupPrimarySpec).1 = .ok () ∧
    (List.range ((createTable MDB dbNew dupPrimarySpec).2.mem 1).colNum).countP
        (fun j => (((createTable MDB dbNew dupPrimarySpec).2.mem 1).cols j).primary) = 1 ∧
    (((createTable MDB dbNew dupPrimarySpec).2.mem 1).cols 0).primary = true ∧
    (((createTable MDB dbNew dupPrimarySpec).2.mem 1).cols 0).unique = false ∧
    (((createTable MDB dbNew dupPrimarySpec).2.mem 1).cols 0).index = NONE32 := by
  refine ⟨by decide, by decide, by decide, by decide, by decide⟩

/-! ## C8: linked paths and bitmap accounting -/

/-- `Path f m stop start l`: following the link field `f` from `start` visits
exactly the pages `l` and then reaches `stop`. -/
inductive Path (f : Page → Nat) (m : Nat → Page) (stop : Nat) : Nat → List Nat → Prop
  | nil : Path f m stop stop []
  | cons {p : Nat} {l : List Nat} : p ≠ stop → Path f m stop (f (m p)) l →
      Path f m stop p (p :: l)

theorem path_congr {f : Page → Nat} {m m2 : Nat → Page} {stop start : Nat}
    {l : List Nat} (hag : ∀ p ∈ l, f (m2 p) = f (m p))
    (h : Path f m stop start l) : Path f m2 stop start l := by
  induction h with
  | nil => exact .nil
  | cons hp htl ih =>
    rename_i p l2
    refine .cons hp ?_
    rw [hag p (by simp)]
    exact ih (fun q hq => hag q (by simp [hq]))

theorem path_ne {f : Page → Nat} {m : Nat → Page} {stop start : Nat}
    {l : List Nat} (h : Path f m stop start l) : ∀ p ∈ l, p ≠ stop := by
  induction h with
  | nil => simp
  | cons hp htl ih =>
    intro q hq
    rcases List.mem_cons.mp hq with h1 | h2
    · rw [h1]; exact hp
    · exact ih q h2

theorem path_head {f : Page → Nat} {m : Nat → Page} {stop start p : Nat}
    {l : List Nat} (h : Path f m stop start (p :: l)) :
    start = p ∧ p ≠ stop ∧ Path f m stop (f (m p)) l := by
  cases h with
  | cons hp htl => exact ⟨rfl, hp, htl⟩

theorem path_nil_iff {f : Page → Nat} {m : Nat → Page} {stop : Nat}
    {l : List Nat} (h : Path f m stop stop l) : l = [] := by
  cases h with
  | nil => rfl
  | cons hp htl => exact absurd rfl hp

theorem path_nil_start {f : Page → Nat} {m : Nat → Page} {stop start : Nat}
    (h : Path f m stop start []) : start = stop := by
  cases h with
  | nil => rfl

/-- A page inside the path whose link equals `stop` is the path's last page. -/
theorem path_link_stop {f : Page → Nat} {m : Nat → Page} {stop start : Nat}
    {l : List Nat} (h : Path f m stop start l) :
    ∀ p ∈ l, f (m p) = stop → l.getLast? = some p := by
  induction h with
  | nil => simp
  | cons hp htl ih =>
    rename_i p l2
    intro q hq hlink
    rcases List.mem_cons.mp hq with h1 | h2
    · subst h1
      rw [hlink] at htl
      rw [path_nil_iff htl]
      simp
    · have hlast := ih q h2 hlink
      cases l2 with
      | nil => exact absurd h2 (by simp)
      | cons a as =>
        rw [List.getLast?_cons_cons]
        exact hlast

/-- The last page of a non-empty path links to `stop`. -/
theorem path_last_link {f : Page → Nat} {m : Nat → Page} {stop start : Nat}
    {l : List Nat} (h : Path f m stop start l) :
    ∀ p, l.getLast? = some p → f (m p) = stop := by
  induction h with
  | nil => simp
  | cons hp htl ih =>
    rename_i p l2
    intro q hq
    cases hl : l2 with
    | nil =>
      subst hl
      simp at hq
      subst hq
      exact path_nil_start htl
    | cons a as =>
      subst hl
      rw [List.getLast?_cons_cons] at hq
      exact ih q hq

/-- Appending a page at the end of a path: the memory `m2` redirects the old
last link (the one equal to `stop`) to `q`, `q` links to `stop`, and all other
links are untouched. -/
theorem path_snoc {f : Page → Nat} {m m2 : Nat → Page} {stop q : Nat} :
    ∀ {start : Nat} {l : List Nat}, Path f m stop start l → l ≠ [] →
    q ≠ stop →
    f (m2 q) = stop →
    (∀ p ∈ l, f (m p) = stop → f (m2 p) = q) →
    (∀ p ∈ l, f (m p) ≠ stop → f (m2 p) = f (m p)) →
    Path f m2 stop start (l ++ [q]) := by
  intro start l h
  induction h with
  | nil => intro hne; exact absurd rfl hne
  | cons hp htl ih =>
    rename_i p l2
    intro _ hq hqlink hredir hkeep
    by_cases hlast : f (m p) = stop
    · have hl2 : l2 = [] := by
        rw [hlast] at htl
        exact path_nil_iff htl
      subst hl2
      refine .cons hp ?_
      rw [hredir p (by simp) hlast]
      exact .cons hq (by rw [hqlink]; exact .nil)
    · have hl2 : l2 ≠ [] := by
        intro hcon
        rw [hcon] at htl
        exact hlast (path_nil_start htl)
      refine .cons hp ?_
      rw [hkeep p (by simp) hlast]
      have := ih hl2 hq hqlink
        (fun r hr => hredir r (by simp [hr]))
        (fun r hr => hkeep r (by simp [hr]))
      simpa using this

/-- Bit `pos` of the slot bitmap (32-bit words). -/
def slotBit (used : Nat → Nat) (pos : Nat) : Bool :=
  (used (pos / 32)).testBit (pos % 32)

/-- Number of set bits among the first `32·w` bitmap positions. -/
def popTotal (used : Nat → Nat) (w : Nat) : Nat :=
  (List.range (32 * w)).countP (slotBit used)

theorem countP_update_true (l : List Nat) (q q2 : Nat → Bool) (s : Nat)
    (hnd : l.Nodup) (hs : s ∈ l) (hq : q s = false) (hq2 : q2 s = true)
    (hag : ∀ a ∈ l, a ≠ s → q2 a = q a) :
    l.countP q2 = l.countP q + 1 := by
  induction l with
  | nil => exact absurd hs (by simp)
  | cons a as ih =>
    rcases List.mem_cons.mp hs with h1 | h2
    · subst h1
      have has : ∀ b ∈ as, q2 b = q b := by
        intro b hb
        have hbs : b ≠ s := by
          intro hcon
          subst hcon
          exact (List.nodup_cons.mp hnd).1 hb
        exact hag b (by simp [hb]) hbs
      have hcongr : List.countP q2 as = List.countP q as :=
        List.countP_congr (fun b hb => by rw [has b hb])
      rw [List.countP_cons, List.countP_cons, hq, hq2, hcongr]
      simp
    · have hane : a ≠ s := by
        intro hcon
        subst hcon
        exact (List.nodup_cons.mp hnd).1 h2
      rw [List.countP_cons, List.countP_cons, hag a (by simp) hane,
        ih (List.nodup_cons.mp hnd).2 h2 (fun b hb hbs => hag b (by simp [hb]) hbs)]
      omega

theorem div32_eq {j p : Nat} (h1 : 32 * j ≤ p) (h2 : p < 32 * (j + 1)) :
    p / 32 = j := by omega

/-- Setting bit `s` flips `slotBit` exactly at `s`. -/
theorem slotBit_set (used : Nat → Nat) (s p : Nat) :
    slotBit (upd used (s / 32) (used (s / 32) ||| 1 <<< (s % 32))) p =
      (slotBit used p || decide (p = s)) := by
  unfold slotBit upd
  by_cases hw : p / 32 = s / 32
  · rw [if_pos hw, hw, Nat.one_shiftLeft, Nat.testBit_lor, Nat.testBit_two_pow]
    by_cases hb : p % 32 = s % 32
    · have hps : p = s := by omega
      subst hps
      simp
    · have hps : p ≠ s := by omega
      have e1 : ¬ (s % 32 = p % 32) := fun hcon => hb hcon.symm
      simp [e1, hps]
  · rw [if_neg hw]
    have hps : p ≠ s := fun hcon => hw (by rw [hcon])
    simp [hps]

/-- Clearing bit `s` (the `& !(1 << b)` mask on a `u32` word) flips `slotBit`
exactly at `s`. -/
theorem slotBit_clear (used : Nat → Nat) (s p : Nat) :
    slotBit (upd used (s / 32) (used (s / 32) &&& (wordFull ^^^ 1 <<< (s % 32)))) p =
      (slotBit used p && ! decide (p = s)) := by
  have hmask : ∀ c, c < 32 →
      (wordFull ^^^ 1 <<< (s % 32)).testBit c = ! decide (c = s % 32) := by
    intro c hc
    have h1 : wordFull = 2 ^ 32 - 1 := by decide
    rw [h1, Nat.one_shiftLeft, Nat.testBit_xor, Nat.testBit_two_pow_sub_one,
      Nat.testBit_two_pow]
    by_cases hcs : c = s % 32
    · subst hcs
      simp [hc]
    · have e1 : ¬ (s % 32 = c) := fun hcon => hcs hcon.symm
      simp [hc, hcs, e1]
  unfold slotBit upd
  by_cases hw : p / 32 = s / 32
  · rw [if_pos hw, hw, Nat.testBit_land, hmask (p % 32) (by omega)]
    by_cases hb : p % 32 = s % 32
    · have hps : p = s := by omega
      subst hps
      simp
    · have hps : p ≠ s := by omega
      simp [hb, hps]
  · rw [if_neg hw]
    have hps : p ≠ s := fun hcon => hw (by rw [hcon])
    simp [hps]

theorem popTotal_set (used : Nat → Nat) (w s : Nat) (hs : s < 32 * w)
    (hb : slotBit used s = false) :
    popTotal (upd used (s / 32) (used (s / 32) ||| 1 <<< (s % 32))) w =
      popTotal used w + 1 := by
  unfold popTotal
  refine countP_update_true _ _ _ s (List.nodup_range _) (by simp [hs]) hb ?_ ?_
  · rw [slotBit_set]
    simp
  · intro a ha hane
    rw [slotBit_set]
    simp [hane]

theorem popTotal_clear (used : Nat → Nat) (w s : Nat) (hs : s < 32 * w)
    (hb : slotBit used s = true) :
    popTotal used w =
      popTotal (upd used (s / 32) (used (s / 32) &&&
        (wordFull ^^^ 1 <<< (s % 32)))) w + 1 := by
  unfold popTotal
  refine countP_update_true _ _ _ s (List.nodup_range _) (by simp [hs]) ?_ hb ?_
  · rw [slotBit_clear]
    simp
  · intro a ha hane
    rw [slotBit_clear]
    simp [hane]

theorem findBitAux_spec (x : Nat) :
    ∀ (n b : Nat), (∃ i, b ≤ i ∧ i < b + n ∧ x.testBit i = false) →
    ∃ r, findBitAux x b n = some r ∧ b ≤ r ∧ r < b + n ∧ x.testBit r = false ∧
      ∀ i, b ≤ i → i < r → x.testBit i = true := by
  intro n
  induction n with
  | zero =>
    intro b hex
    obtain ⟨i, h1, h2, -⟩ := hex
    omega
  | succ n ih =>
    intro b hex
    unfold findBitAux
    by_cases hb : x.testBit b
    · rw [if_pos hb]
      obtain ⟨i, h1, h2, h3⟩ := hex
      have hib : i ≠ b := by
        intro hcon
        subst hcon
        rw [hb] at h3
        exact absurd h3 (by simp)
      obtain ⟨r, hr1, hr2, hr3, hr4, hr5⟩ := ih (b + 1) ⟨i, by omega, by omega, h3⟩
      refine ⟨r, hr1, by omega, by omega, hr4, ?_⟩
      intro j hj1 hj2
      by_cases hjb : j = b
      · rw [hjb]; exact hb
      · exact hr5 j (by omega) hj2
    · rw [if_neg hb]
      refine ⟨b, rfl, le_refl b, by omega, by simpa using hb, ?_⟩
      intro i h1 h2
      omega

theorem findSlotAux_spec (used : Nat → Nat) :
    ∀ (w j : Nat),
    (∀ i, j ≤ i → i < j + w → used i < 2 ^ 32) →
    (∃ q, 32 * j ≤ q ∧ q < 32 * (j + w) ∧ slotBit used q = false) →
    (∀ p, p < 32 * j → slotBit used p = true) →
    ∃ s, findSlotAux used j w = some s ∧ slotBit used s = false ∧
      32 * j ≤ s ∧ s < 32 * (j + w) ∧ ∀ p, p < s → slotBit used p = true := by
  intro w
  induction w with
  | zero =>
    intro j h32 hex hbefore
    obtain ⟨q, h1, h2, -⟩ := hex
    omega
  | succ w ih =>
    intro j h32 hex hbefore
    unfold findSlotAux
    by_cases hfull : used j = wordFull
    · rw [if_pos hfull]
      have hword : ∀ p, 32 * j ≤ p → p < 32 * (j + 1) → slotBit used p = true := by
        intro p hp1 hp2
        unfold slotBit
        have hdiv : p / 32 = j := by omega
        rw [hdiv, hfull]
        have : wordFull = 2 ^ 32 - 1 := by decide
        rw [this, Nat.testBit_two_pow_sub_one]
        simp
        omega
      have hex2 : ∃ q, 32 * (j + 1) ≤ q ∧ q < 32 * ((j + 1) + w) ∧
          slotBit used q = false := by
        obtain ⟨q, h1, h2, h3⟩ := hex
        refine ⟨q, ?_, by omega, h3⟩
        by_contra hq
        rw [hword q h1 (by omega)] at h3
        exact absurd h3 (by simp)
      have hbefore2 : ∀ p, p < 32 * (j + 1) → slotBit used p = true := by
        intro p hp
        by_cases h : p < 32 * j
        · exact hbefore p h
        · exact hword p (by omega) hp
      obtain ⟨s, hs1, hs2, hs3, hs4, hs5⟩ := ih (j + 1)
        (fun i hi1 hi2 => h32 i (by omega) (by omega)) hex2 hbefore2
      exact ⟨s, hs1, hs2, by omega, by omega, hs5⟩
    · rw [if_neg hfull]
      have hclear : ∃ b, b < 32 ∧ (used j).testBit b = false := by
        by_contra hall
        push_neg at hall
        have hall2 : ∀ b, b < 32 → (used j).testBit b = true := by
          intro b hb
          have := hall b hb
          cases h : (used j).testBit b
          · exact absurd h this
          · rfl
        apply hfull
        apply Nat.eq_of_testBit_eq
        intro i
        have hwf : wordFull = 2 ^ 32 - 1 := by decide
        rw [hwf, Nat.testBit_two_pow_sub_one]
        by_cases hi : i < 32
        · simp [hi, hall2 i hi]
        · have hhi : (used j).testBit i = false :=
            Nat.testBit_lt_two_pow (lt_of_lt_of_le (h32 j (le_refl j) (by omega))
              (Nat.pow_le_pow_right (by omega) (by omega)))
          simp [hi, hhi]
      obtain ⟨b0, hb0, hb0c⟩ := hclear
      obtain ⟨r, hr1, hr2, hr3, hr4, hr5⟩ :=
        findBitAux_spec (used j) 32 0 ⟨b0, by omega, by omega, hb0c⟩
      rw [hr1]
      refine ⟨32 * j + r, rfl, ?_, by omega, by omega, ?_⟩
      · unfold slotBit
        have hdiv : (32 * j + r) / 32 = j := by omega
        have hmod : (32 * j + r) % 32 = r := by omega
        rw [hdiv, hmod]
        exact hr4
      · intro p hp
        by_cases hlow : p < 32 * j
        · exact hbefore p hlow
        · unfold slotBit
          have hdiv : p / 32 = j := by omega
          have hmod : p % 32 = p - 32 * j := by omega
          rw [hdiv, hmod]
          exact hr5 (p - 32 * j) (by omega) (by omega)

/-- On a page satisfying the bitmap accounting (`count` set bits, garbage bits
beyond `cap` clear, words in `u32` range) with `count < cap`, the word scan
finds a clear slot below `cap`. -/
theorem findSlot_head (used : Nat → Nat) (cap cnt : Nat) (hcap : 0 < cap)
    (h32 : ∀ i, i < bsWords cap → used i < 2 ^ 32)
    (hval : ∀ p, p < 32 * bsWords cap → cap ≤ p → slotBit used p = false)
    (hpop : popTotal used (bsWords cap) = cnt) (hlt : cnt < cap) :
    ∃ s, findSlotAux used 0 (bsWords cap) = some s ∧ s < cap ∧
      slotBit used s = false := by
  have hcapw : cap ≤ 32 * bsWords cap := by
    unfold bsWords
    omega
  have hex : ∃ q, q < cap ∧ slotBit used q = false := by
    by_contra hall
    push_neg at hall
    have hall2 : ∀ q ∈ List.range cap, slotBit used q = true := by
      intro q hq
      have hqc : q < cap := by simpa using hq
      cases h : slotBit used q
      · exact absurd h (hall q hqc)
      · rfl
    have hcnt : (List.range cap).countP (slotBit used) = cap := by
      rw [List.countP_eq_length.mpr hall2, List.length_range]
    have hsplit : 32 * bsWords cap = cap + (32 * bsWords cap - cap) := by omega
    have hge : cap ≤ popTotal used (bsWords cap) := by
      unfold popTotal
      rw [hsplit, List.range_add, List.countP_append, hcnt]
      omega
    omega
  obtain ⟨q, hq1, hq2⟩ := hex
  obtain ⟨s, hs1, hs2, hs3, hs4, hs5⟩ := findSlotAux_spec used (bsWords cap) 0
    (fun i _ hi => h32 i (by omega))
    ⟨q, by omega, by omega, hq2⟩
    (fun p hp => by omega)
  refine ⟨s, hs1, ?_, hs2⟩
  by_contra hsc
  push_neg at hsc
  have := hs5 q (by omega)
  rw [this] at hq2
  exact absurd hq2 (by simp)

/-- The has-free-slot chain of table page `tpId` is the list `l`: following
`next_free` from `tp.first_free` visits `l` and ends at the `!0` sentinel. -/
def chainOf (db : Db) (tpId : Nat) (l : List Nat) : Prop :=
  Path (fun pg => pg.nextFree) db.mem NONE32 ((db.mem tpId).tFirstFree) l

/-- The data-page ring of table page `tpId` is the list `r`: following `next`
from the table page visits `r` and closes back at the table page. -/
def ringNext (db : Db) (tpId : Nat) (r : List Nat) : Prop :=
  Path (fun pg => pg.next) db.mem tpId ((db.mem tpId).next) r

/-- The `prev` links close the same ring in the opposite order. -/
def ringPrev (db : Db) (tpId : Nat) (r : List Nat) : Prop :=
  Path (fun pg => pg.prev) db.mem tpId ((db.mem tpId).prev) r.reverse

/-- The heap invariant of one table (claim C8 and spec §8 invariant 3, plus
the bookkeeping that makes it inductive): the data pages form a doubly linked
ring `ring`; the has-free chain `chain` is a duplicate-free sublist of the
ring; on every data page the slot bitmap has exactly `count` set bits, all in
`u32` words and none at positions ≥ `cap`; **every page on the chain has
`count < cap`, and every data page not on the chain has `count = cap`**. -/
structure SlotInv (db : Db) (tpId : Nat) (ring chain : List Nat) : Prop where
  nodup : (tpId :: ring).Nodup
  ringNe : ∀ p ∈ ring, p ≠ NONE32
  capPos : 0 < (db.mem tpId).cap
  ringN : ringNext db tpId ring
  ringP : ringPrev db tpId ring
  chainP : chainOf db tpId chain
  chainSub : chain ⊆ ring
  chainNd : chain.Nodup
  words : ∀ p ∈ ring, ∀ i, i < bsWords (db.mem tpId).cap → (db.mem p).used i < 2 ^ 32
  invalid : ∀ p ∈ ring, ∀ pos, pos < 32 * bsWords (db.mem tpId).cap →
    (db.mem tpId).cap ≤ pos → slotBit (db.mem p).used pos = false
  counts : ∀ p ∈ ring, (db.mem p).count = popTotal (db.mem p).used (bsWords (db.mem tpId).cap)
  chainLt : ∀ p ∈ chain, (db.mem p).count < (db.mem tpId).cap
  fullEq : ∀ p ∈ ring, p ∉ chain → (db.mem p).count = (db.mem tpId).cap

/-- Freshness of the page `allocate_page` would hand out: it is not the table
page, not on the ring, and not the `!0` sentinel (pages stay below `2^32-1`). -/
def allocFresh (db : Db) (tpId : Nat) (ring : List Nat) : Prop :=
  allocTarget db ∉ tpId :: ring ∧ allocTarget db ≠ NONE32

theorem cap_le_32_bsWords (cap : Nat) : cap ≤ 32 * bsWords cap := by
  unfold bsWords
  omega

/-- `fillSlot` on a state whose chain is non-empty: the slot scan succeeds on
the chain's head, the returned slot is below `cap`, and the invariant is
preserved (the head leaves the chain exactly when it becomes full). -/
theorem fillSlot_inv (db : Db) (tpId fp : Nat) (ring t : List Nat)
    (hInv : SlotInv db tpId ring (fp :: t)) :
    ∃ db2 s, fillSlot db tpId = some (db2, ⟨fp, s⟩) ∧ s < (db.mem tpId).cap ∧
      SlotInv db2 tpId ring
        (if (db.mem fp).count + 1 = (db.mem tpId).cap then t else fp :: t) := by
  obtain ⟨hstart, hfpne, htail⟩ := path_head hInv.chainP
  have htpring : tpId ∉ ring := (List.nodup_cons.mp hInv.nodup).1
  have hfpr : fp ∈ ring := hInv.chainSub (by simp)
  have hfptp : fp ≠ tpId := fun hcon => htpring (hcon ▸ hfpr)
  have hfpt : fp ∉ t := (List.nodup_cons.mp hInv.chainNd).1
  have hcnt : (db.mem fp).count < (db.mem tpId).cap := hInv.chainLt fp (by simp)
  obtain ⟨s, hfind, hslt, hsbit⟩ := findSlot_head (db.mem fp).used
    (db.mem tpId).cap (db.mem fp).count (by omega)
    (hInv.words fp hfpr) (hInv.invalid fp hfpr) (hInv.counts fp hfpr).symm hcnt
  have hs32 : s < 32 * bsWords (db.mem tpId).cap :=
    lt_of_lt_of_le hslt (cap_le_32_bsWords _)
  set cap := (db.mem tpId).cap with hcap
  set dpNew : Page := { db.mem fp with
    used := upd (db.mem fp).used (s / 32) ((db.mem fp).used (s / 32) ||| 1 <<< (s % 32)),
    count := (db.mem fp).count + 1 } with hdp
  set db1 : Db := { db with mem := upd db.mem fp dpNew } with hdb1
  have hdpc : dpNew.count = (db.mem fp).count + 1 := by rw [hdp]
  have hdpu : dpNew.used =
      upd (db.mem fp).used (s / 32) ((db.mem fp).used (s / 32) ||| 1 <<< (s % 32)) := by
    rw [hdp]
  have hdpnf : dpNew.nextFree = (db.mem fp).nextFree := by rw [hdp]
  have hdpnx : dpNew.next = (db.mem fp).next := by rw [hdp]
  have hdppv : dpNew.prev = (db.mem fp).prev := by rw [hdp]
  have hm1fp : db1.mem fp = dpNew := by
    rw [hdb1]
    exact upd_same _ _ _
  have hm1ne : ∀ p, p ≠ fp → db1.mem p = db.mem p := by
    intro p hp
    rw [hdb1]
    exact upd_ne _ _ _ hp
  have hm1tp : db1.mem tpId = db.mem tpId := hm1ne tpId (fun h => hfptp h.symm)
  refine ⟨if dpNew.count = cap then
      { db1 with mem := upd db1.mem tpId { db1.mem tpId with tFirstFree := dpNew.nextFree } }
    else db1, s, ?_, hslt, ?_⟩
  · unfold fillSlot
    simp only []
    rw [hstart]
    simp only [hfind]
  · rw [hdpc]
    by_cases hfull : (db.mem fp).count + 1 = cap
    · -- the head becomes full and is unlinked from the chain
      rw [if_pos hfull, if_pos hfull]
      set db2 : Db := { db1 with
        mem := upd db1.mem tpId { db1.mem tpId with tFirstFree := dpNew.nextFree } } with hdb2
      have hm2fp : db2.mem fp = dpNew := by
        rw [hdb2]
        show upd db1.mem tpId _ fp = dpNew
        rw [upd_ne _ _ _ hfptp]
        exact hm1fp
      have hm2tp : db2.mem tpId = { db1.mem tpId with tFirstFree := dpNew.nextFree } := by
        rw [hdb2]
        show upd db1.mem tpId _ tpId = _
        exact upd_same _ _ _
      have hm2ne : ∀ p, p ≠ fp → p ≠ tpId → db2.mem p = db.mem p := by
        intro p hp1 hp2
        rw [hdb2]
        show upd db1.mem tpId _ p = _
        rw [upd_ne _ _ _ hp2]
        exact hm1ne p hp1
      have hBn : (db2.mem tpId).next = (db.mem tpId).next := by rw [hm2tp, hm1tp]
      have hBp : (db2.mem tpId).prev = (db.mem tpId).prev := by rw [hm2tp, hm1tp]
      have hBff : (db2.mem tpId).tFirstFree = (db.mem fp).nextFree := by
        rw [hm2tp, ← hdpnf]
      have hBcap : (db2.mem tpId).cap = cap := by rw [hm2tp, hm1tp]
      have htsub : t ⊆ ring := fun q hq => hInv.chainSub (by simp [hq])
      have htne : ∀ q ∈ t, q ≠ tpId := by
        intro q hq hcon
        exact htpring (hcon ▸ htsub hq)
      refine ⟨hInv.nodup, hInv.ringNe, ?_, ?_, ?_, ?_, htsub,
        (List.nodup_cons.mp hInv.chainNd).2, ?_, ?_, ?_, ?_, ?_⟩
      · rw [hBcap]
        exact hInv.capPos
      · unfold ringNext
        rw [hBn]
        refine path_congr ?_ hInv.ringN
        intro p hp
        show (db2.mem p).next = (db.mem p).next
        by_cases hpf : p = fp
        · rw [hpf, hm2fp, hdpnx]
        · rw [hm2ne p hpf (fun hcon => htpring (hcon ▸ hp))]
      · unfold ringPrev
        rw [hBp]
        refine path_congr ?_ hInv.ringP
        intro p hp
        have hpr : p ∈ ring := List.mem_reverse.mp hp
        show (db2.mem p).prev = (db.mem p).prev
        by_cases hpf : p = fp
        · rw [hpf, hm2fp, hdppv]
        · rw [hm2ne p hpf (fun hcon => htpring (hcon ▸ hpr))]
      · unfold chainOf
        rw [hBff]
        refine path_congr ?_ htail
        intro p hp
        show (db2.mem p).nextFree = (db.mem p).nextFree
        rw [hm2ne p (fun hcon => hfpt (hcon ▸ hp)) (htne p hp)]
      · intro p hp i hi
        rw [hBcap] at hi
        by_cases hpf : p = fp
        · rw [hpf, hm2fp, hdpu]
          by_cases hiw : i = s / 32
          · subst hiw
            rw [upd_same]
            have h1 : (db.mem fp).used (s / 32) < 2 ^ 32 :=
              hInv.words fp hfpr (s / 32) (by rw [← hcap]; omega)
            have h2 : (1 <<< (s % 32) : Nat) < 2 ^ 32 := by
              rw [Nat.one_shiftLeft]
              exact Nat.pow_lt_pow_right (by omega) (by omega)
            exact Nat.or_lt_two_pow h1 h2
          · rw [upd_ne _ _ _ hiw]
            exact hInv.words fp hfpr i hi
        · rw [hm2ne p hpf (fun hcon => htpring (hcon ▸ hp))]
          exact hInv.words p hp i hi
      · intro p hp pos hpos hcaple
        rw [hBcap] at hpos hcaple
        by_cases hpf : p = fp
        · rw [hpf, hm2fp, hdpu, slotBit_set]
          have h1 : slotBit (db.mem fp).used pos = false :=
            hInv.invalid fp hfpr pos hpos hcaple
          have h2 : pos ≠ s := by omega
          simp [h1, h2]
        · rw [hm2ne p hpf (fun hcon => htpring (hcon ▸ hp))]
          exact hInv.invalid p hp pos hpos hcaple
      · intro p hp
        rw [hBcap]
        by_cases hpf : p = fp
        · rw [hpf, hm2fp, hdpc, hdpu, popTotal_set _ _ s hs32 hsbit,
            hInv.counts fp hfpr]
        · rw [hm2ne p hpf (fun hcon => htpring (hcon ▸ hp))]
          exact hInv.counts p hp
      · intro p hp
        rw [hBcap, hm2ne p (fun hcon => hfpt (hcon ▸ hp)) (htne p hp)]
        exact hInv.chainLt p (by simp [hp])
      · intro p hp hnc
        rw [hBcap]
        by_cases hpf : p = fp
        · rw [hpf, hm2fp, hdpc]
          exact hfull
        · rw [hm2ne p hpf (fun hcon => htpring (hcon ▸ hp))]
          exact hInv.fullEq p hp (fun hcon => by
            rcases List.mem_cons.mp hcon with h1 | h2
            · exact hpf h1
            · exact hnc h2)
    · -- the head stays on the chain
      rw [if_neg hfull, if_neg hfull]
      have hBn : (db1.mem tpId).next = (db.mem tpId).next := by rw [hm1tp]
      have hBp : (db1.mem tpId).prev = (db.mem tpId).prev := by rw [hm1tp]
      have hBff : (db1.mem tpId).tFirstFree = (db.mem tpId).tFirstFree := by rw [hm1tp]
      have hBcap : (db1.mem tpId).cap = cap := by rw [hm1tp]
      refine ⟨hInv.nodup, hInv.ringNe, ?_, ?_, ?_, ?_, hInv.chainSub,
        hInv.chainNd, ?_, ?_, ?_, ?_, ?_⟩
      · rw [hBcap]
        exact hInv.capPos
      · unfold ringNext
        rw [hBn]
        refine path_congr ?_ hInv.ringN
        intro p hp
        show (db1.mem p).next = (db.mem p).next
        by_cases hpf : p = fp
        · rw [hpf, hm1fp, hdpnx]
        · rw [hm1ne p hpf]
      · unfold ringPrev
        rw [hBp]
        refine path_congr ?_ hInv.ringP
        intro p hp
        show (db1.mem p).prev = (db.mem p).prev
        by_cases hpf : p = fp
        · rw [hpf, hm1fp, hdppv]
        · rw [hm1ne p hpf]
      · unfold chainOf
        rw [hBff]
        refine path_congr ?_ hInv.chainP
        intro p hp
        show (db1.mem p).nextFree = (db.mem p).nextFree
        by_cases hpf : p = fp
        · rw [hpf, hm1fp, hdpnf]
        · rw [hm1ne p hpf]
      · intro p hp i hi
        rw [hBcap] at hi
        by_cases hpf : p = fp
        · rw [hpf, hm1fp, hdpu]
          by_cases hiw : i = s / 32
          · subst hiw
            rw [upd_same]
            have h1 : (db.mem fp).used (s / 32) < 2 ^ 32 :=
              hInv.words fp hfpr (s / 32) (by rw [← hcap]; omega)
            have h2 : (1 <<< (s % 32) : Nat) < 2 ^ 32 := by
              rw [Nat.one_shiftLeft]
              exact Nat.pow_lt_pow_right (by omega) (by omega)
            exact Nat.or_lt_two_pow h1 h2
          · rw [upd_ne _ _ _ hiw]
            exact hInv.words fp hfpr i hi
        · rw [hm1ne p hpf]
          exact hInv.words p hp i hi
      · intro p hp pos hpos hcaple
        rw [hBcap] at hpos hcaple
        by_cases hpf : p = fp
        · rw [hpf, hm1fp, hdpu, slotBit_set]
          have h1 : slotBit (db.mem fp).used pos = false :=
            hInv.invalid fp hfpr pos hpos hcaple
          have h2 : pos ≠ s := by omega
          simp [h1, h2]
        · rw [hm1ne p hpf]
          exact hInv.invalid p hp pos hpos hcaple
      · intro p hp
        rw [hBcap]
        by_cases hpf : p = fp
        · rw [hpf, hm1fp, hdpc, hdpu, popTotal_set _ _ s hs32 hsbit,
            hInv.counts fp hfpr]
        · rw [hm1ne p hpf]
          exact hInv.counts p hp
      · intro p hp
        rw [hBcap]
        by_cases hpf : p = fp
        · rw [hpf, hm1fp, hdpc]
          omega
        · rw [hm1ne p hpf]
          exact hInv.chainLt p hp
      · intro p hp hnc
        rw [hBcap]
        have hpf : p ≠ fp := fun hcon => hnc (by simp [hcon])
        rw [hm1ne p hpf]
        exact hInv.fullEq p hp hnc

theorem popTotal_zeros (w : Nat) : popTotal (fun _ => 0) w = 0 := by
  unfold popTotal
  rw [List.countP_eq_zero]
  intro a ha
  simp [slotBit]

/-- Pointwise description of the memory after `expandTable`, assuming the
allocated page is fresh. -/
theorem expandTable_mem (db : Db) (tpId : Nat)
    (h1 : allocTarget db ≠ tpId) (h2 : allocTarget db ≠ (db.mem tpId).prev) :
    ((expandTable db tpId).mem (allocTarget db) =
      { db.mem (allocTarget db) with
          prev := (db.mem tpId).prev, next := tpId,
          nextFree := NONE32, count := 0, used := fun _ => 0 }) ∧
    ((db.mem tpId).prev ≠ tpId →
      (expandTable db tpId).mem (db.mem tpId).prev =
        { db.mem (db.mem tpId).prev with next := allocTarget db } ∧
      (expandTable db tpId).mem tpId =
        { db.mem tpId with prev := allocTarget db, tFirstFree := allocTarget db }) ∧
    ((db.mem tpId).prev = tpId →
      (expandTable db tpId).mem tpId =
        { db.mem tpId with
            prev := allocTarget db, next := allocTarget db,
            tFirstFree := allocTarget db }) ∧
    (∀ p, p ≠ allocTarget db → p ≠ (db.mem tpId).prev → p ≠ tpId →
      (expandTable db tpId).mem p = db.mem p) := by
  unfold allocTarget at h1 h2
  unfold expandTable allocatePage allocTarget
  by_cases hff : db.firstFree = NONE32
  · have hcond : ¬ (db.firstFree ≠ NONE32) := by simp [hff]
    simp only [if_neg hcond] at h1 h2 ⊢
    have h1s : tpId ≠ db.pages := fun h => h1 h.symm
    have h2s : (db.mem tpId).prev ≠ db.pages := fun h => h2 h.symm
    refine ⟨?_, ?_, ?_, ?_⟩
    · simp [upd, h1, h2, h1s, h2s]
    · intro htt
      have htts : tpId ≠ (db.mem tpId).prev := fun h => htt h.symm
      constructor
      · simp [upd, h1, h2, h1s, h2s, htt, htts]
      · simp [upd, h1, h2, h1s, h2s, htt, htts]
    · intro htt
      simp [upd, h1, h2, h1s, h2s, htt]
    · intro p hp1 hp2 hp3
      simp [upd, hp1, hp2, hp3]
  · have hne : db.firstFree ≠ NONE32 := hff
    simp only [if_pos hne] at h1 h2 ⊢
    have h1s : tpId ≠ db.firstFree := fun h => h1 h.symm
    have h2s : (db.mem tpId).prev ≠ db.firstFree := fun h => h2 h.symm
    refine ⟨?_, ?_, ?_, ?_⟩
    · simp [upd, h1, h2, h1s, h2s]
    · intro htt
      have htts : tpId ≠ (db.mem tpId).prev := fun h => htt h.symm
      constructor
      · simp [upd, h1, h2, h1s, h2s, htt, htts]
      · simp [upd, h1, h2, h1s, h2s, htt, htts]
    · intro htt
      simp [upd, h1, h2, h1s, h2s, htt]
    · intro p hp1 hp2 hp3
      simp [upd, hp1, hp2, hp3]

/-- Growing the ring preserves the invariant: after `expandTable` the fresh
page is the single member of the has-free chain, linked at the ring's tail. -/
theorem expandTable_inv (db : Db) (tpId : Nat) (ring : List Nat)
    (hInv : SlotInv db tpId ring [])
    (hfresh : allocFresh db tpId ring) :
    SlotInv (expandTable db tpId) tpId (ring ++ [allocTarget db]) [allocTarget db] := by
  obtain ⟨hidmem, hidne⟩ := hfresh
  have h1 : allocTarget db ≠ tpId := fun h => hidmem (by simp [h])
  have hidring : allocTarget db ∉ ring := fun h => hidmem (by simp [h])
  have htpring : tpId ∉ ring := (List.nodup_cons.mp hInv.nodup).1
  cases hr : ring with
  | nil =>
    subst hr
    have htt : (db.mem tpId).prev = tpId := by
      have hpv := hInv.ringP
      unfold ringPrev at hpv
      simpa using path_nil_start hpv
    have h2 : allocTarget db ≠ (db.mem tpId).prev := by
      rw [htt]
      exact h1
    obtain ⟨hmid, -, hmtpf, hframe⟩ := expandTable_mem db tpId h1 h2
    have hmtp := hmtpf htt
    refine ⟨?_, ?_, ?_, ?_, ?_, ?_, ?_, ?_, ?_, ?_, ?_, ?_, ?_⟩
    · simp [List.nodup_cons]
      exact fun h => h1 h.symm
    · intro p hp
      simp at hp
      rw [hp]
      exact hidne
    · rw [hmtp]
      exact hInv.capPos
    · unfold ringNext
      rw [hmtp]
      simp only [List.nil_append]
      refine Path.cons h1 ?_
      rw [hmid]
      exact Path.nil
    · unfold ringPrev
      rw [hmtp]
      simp only [List.nil_append, List.reverse_cons, List.reverse_nil]
      refine Path.cons h1 ?_
      rw [hmid, htt]
      exact Path.nil
    · unfold chainOf
      rw [hmtp]
      refine Path.cons hidne ?_
      rw [hmid]
      exact Path.nil
    · simp
    · simp
    · intro p hp i hi
      simp at hp
      rw [hp, hmid]
      show (0 : Nat) < 2 ^ 32
      exact Nat.two_pow_pos 32
    · intro p hp pos hpos hcap
      simp at hp
      rw [hp, hmid]
      show slotBit (fun _ => 0) pos = false
      simp [slotBit]
    · intro p hp
      simp at hp
      rw [hp, hmid]
      show (0 : Nat) = popTotal (fun _ => 0) _
      rw [popTotal_zeros]
    · intro p hp
      simp at hp
      rw [hp, hmid, hmtp]
      show (0 : Nat) < (db.mem tpId).cap
      exact hInv.capPos
    · intro p hp hnp
      simp at hp
      rw [hp] at hnp
      exact absurd (by simp) hnp
  | cons r0 rs =>
    rw [← hr]
    have hringne : ring ≠ [] := by rw [hr]; simp
    obtain ⟨tail, rest, hrev⟩ : ∃ a as, ring.reverse = a :: as := by
      cases hrv : ring.reverse with
      | nil =>
        exact absurd (by simpa using congrArg List.reverse hrv) hringne
      | cons a as => exact ⟨a, as, rfl⟩
    have hpv := hInv.ringP
    unfold ringPrev at hpv
    rw [hrev] at hpv
    obtain ⟨hstartp, htailtp, -⟩ := path_head hpv
    have htailring : tail ∈ ring := by
      have : tail ∈ ring.reverse := by rw [hrev]; simp
      exact List.mem_reverse.mp this
    have htt : (db.mem tpId).prev ≠ tpId := by
      rw [hstartp]
      intro hcon
      exact htpring (hcon ▸ htailring)
    have h2 : allocTarget db ≠ (db.mem tpId).prev := by
      rw [hstartp]
      intro hcon
      exact hidring (hcon ▸ htailring)
    obtain ⟨hmid, hmttf, -, hframe⟩ := expandTable_mem db tpId h1 h2
    obtain ⟨hmtail, hmtp⟩ := hmttf htt
    rw [hstartp] at hmid hmtail hframe
    have hlast : ring.getLast? = some tail := by
      rw [← List.head?_reverse, hrev]
      rfl
    have hlastlink : (db.mem tail).next = tpId :=
      path_last_link hInv.ringN tail hlast
    have hframe2 : ∀ p ∈ ring, p ≠ tail → (expandTable db tpId).mem p = db.mem p := by
      intro p hp hptail
      exact hframe p (fun h => hidring (h ▸ hp)) hptail (fun h => htpring (h ▸ hp))
    refine ⟨?_, ?_, ?_, ?_, ?_, ?_, ?_, ?_, ?_, ?_, ?_, ?_, ?_⟩
    · rcases List.nodup_cons.mp hInv.nodup with ⟨htpn, hrn⟩
      refine List.nodup_cons.mpr ⟨?_, ?_⟩
      · intro hmem
        rcases List.mem_append.mp hmem with hin | hin
        · exact htpn hin
        · simp at hin
          exact h1 hin.symm
      · refine List.Nodup.append hrn (List.nodup_singleton _) ?_
        intro a ha hb
        simp at hb
        exact hidring (hb ▸ ha)
    · intro p hp
      rcases List.mem_append.mp hp with hin | hin
      · exact hInv.ringNe p hin
      · simp at hin
        rw [hin]
        exact hidne
    · rw [hmtp]
      exact hInv.capPos
    · unfold ringNext
      rw [hmtp]
      refine path_snoc hInv.ringN hringne h1 ?_ ?_ ?_
      · show ((expandTable db tpId).mem (allocTarget db)).next = tpId
        rw [hmid]
      · intro p hp hlk
        have hp2 := path_link_stop hInv.ringN p hp hlk
        rw [hlast] at hp2
        injection hp2 with hp3
        rw [← hp3]
        show ((expandTable db tpId).mem tail).next = allocTarget db
        rw [hmtail]
      · intro p hp hlk
        have hptail : p ≠ tail := by
          intro hcon
          rw [hcon] at hlk
          exact hlk hlastlink
        show ((expandTable db tpId).mem p).next = (db.mem p).next
        rw [hframe2 p hp hptail]
    · unfold ringPrev
      rw [hmtp]
      have hcg : Path (fun pg => pg.prev) (expandTable db tpId).mem tpId
          tail ring.reverse := by
        have hcg0 : Path (fun pg => pg.prev) (expandTable db tpId).mem tpId
            ((db.mem tpId).prev) (tail :: rest) := by
          refine path_congr ?_ hpv
          intro p hp
          have hpr : p ∈ ring := List.mem_reverse.mp (by rw [hrev]; exact hp)
          show ((expandTable db tpId).mem p).prev = (db.mem p).prev
          by_cases hptail : p = tail
          · rw [hptail, hmtail]
          · rw [hframe2 p hpr hptail]
        rw [hstartp] at hcg0
        rw [hrev]
        exact hcg0
      have hlist : (ring ++ [allocTarget db]).reverse = allocTarget db :: ring.reverse := by
        simp
      rw [hlist]
      refine Path.cons h1 ?_
      rw [hmid]
      exact hcg
    · unfold chainOf
      rw [hmtp]
      refine Path.cons hidne ?_
      rw [hmid]
      exact Path.nil
    · intro p hp
      simp at hp
      simp [hp]
    · simp
    · intro p hp i hi
      rw [show ((expandTable db tpId).mem tpId).cap = (db.mem tpId).cap from by
        rw [hmtp]] at hi
      rcases List.mem_append.mp hp with hin | hin
      · by_cases hptail : p = tail
        · rw [hptail, hmtail]
          exact hInv.words tail htailring i hi
        · rw [hframe2 p hin hptail]
          exact hInv.words p hin i hi
      · simp at hin
        rw [hin, hmid]
        show (0 : Nat) < 2 ^ 32
        exact Nat.two_pow_pos 32
    · intro p hp pos hpos hcap
      rw [show ((expandTable db tpId).mem tpId).cap = (db.mem tpId).cap from by
        rw [hmtp]] at hpos hcap
      rcases List.mem_append.mp hp with hin | hin
      · by_cases hptail : p = tail
        · rw [hptail, hmtail]
          exact hInv.invalid tail htailring pos hpos hcap
        · rw [hframe2 p hin hptail]
          exact hInv.invalid p hin pos hpos hcap
      · simp at hin
        rw [hin, hmid]
        show slotBit (fun _ => 0) pos = false
        simp [slotBit]
    · intro p hp
      rw [show ((expandTable db tpId).mem tpId).cap = (db.mem tpId).cap from by
        rw [hmtp]]
      rcases List.mem_append.mp hp with hin | hin
      · by_cases hptail : p = tail
        · rw [hptail, hmtail]
          exact hInv.counts tail htailring
        · rw [hframe2 p hin hptail]
          exact hInv.counts p hin
      · simp at hin
        rw [hin, hmid]
        show (0 : Nat) = popTotal (fun _ => 0) _
        rw [popTotal_zeros]
    · intro p hp
      simp at hp
      rw [hp, hmid, hmtp]
      show (0 : Nat) < (db.mem tpId).cap
      exact hInv.capPos
    · intro p hp hnp
      rw [show ((expandTable db tpId).mem tpId).cap = (db.mem tpId).cap from by
        rw [hmtp]]
      rcases List.mem_append.mp hp with hin | hin
      · by_cases hptail : p = tail
        · rw [hptail, hmtail]
          exact hInv.fullEq tail htailring (by simp)
        · rw [hframe2 p hin hptail]
          exact hInv.fullEq p hin (by simp)
      · simp at hin
        rw [hin] at hnp
        exact absurd (by simp) hnp

/-- What `deallocate_data_slot` does to the heap, given that the slot's bit
is set: the bit is cleared and `count` decremented; when the page was full it
is pushed onto the has-free chain (`next_free := tp.first_free`,
`tp.first_free := page`); every other page is untouched. -/
theorem deallocateDataSlot_char (db : Db) (tpId : Nat) (rid : Rid)
    (hbit : slotBit (db.mem rid.page).used rid.slot = true)
    (hptp : rid.page ≠ tpId) :
    ∃ db2, deallocateDataSlot db tpId rid = some db2 ∧
      ((db.mem rid.page).count = (db.mem tpId).cap →
        db2.mem rid.page = { db.mem rid.page with
            used := upd (db.mem rid.page).used (rid.slot / 32)
              ((db.mem rid.page).used (rid.slot / 32) &&&
                (wordFull ^^^ 1 <<< (rid.slot % 32))),
            nextFree := (db.mem tpId).tFirstFree,
            count := (db.mem rid.page).count - 1 } ∧
        db2.mem tpId = { db.mem tpId with tFirstFree := rid.page }) ∧
      ((db.mem rid.page).count ≠ (db.mem tpId).cap →
        db2.mem rid.page = { db.mem rid.page with
            used := upd (db.mem rid.page).used (rid.slot / 32)
              ((db.mem rid.page).used (rid.slot / 32) &&&
                (wordFull ^^^ 1 <<< (rid.slot % 32))),
            count := (db.mem rid.page).count - 1 } ∧
        db2.mem tpId = db.mem tpId) ∧
      (∀ q, q ≠ rid.page → q ≠ tpId → db2.mem q = db.mem q) := by
  have htpp : tpId ≠ rid.page := fun h => hptp h.symm
  have hcond : ¬ (((db.mem rid.page).used (rid.slot / 32)).testBit (rid.slot % 32) = false) := by
    unfold slotBit at hbit
    simp [hbit]
  obtain ⟨db2, heq⟩ : ∃ d, deallocateDataSlot db tpId rid = some d := by
    unfold deallocateDataSlot
    simp only []
    rw [if_neg hcond]
    exact ⟨_, rfl⟩
  have heqE := heq
  unfold deallocateDataSlot at heqE
  simp only [] at heqE
  rw [if_neg hcond] at heqE
  injection heqE with heqE2
  refine ⟨db2, heq, ?_, ?_, ?_⟩
  · intro hfull
    rw [← heqE2]
    simp only [upd_ne _ _ _ htpp, upd_same]
    rw [if_pos hfull]
    simp only [upd_ne _ _ _ htpp, upd_ne _ _ _ hptp, upd_same]
    exact ⟨trivial, trivial⟩
  · intro hfull
    rw [← heqE2]
    simp only [upd_ne _ _ _ htpp, upd_same]
    rw [if_neg hfull]
    simp only [upd_ne _ _ _ htpp, upd_ne _ _ _ hptp, upd_same]
    exact ⟨trivial, trivial⟩
  · intro q hq1 hq2
    rw [← heqE2]
    simp only [upd_ne _ _ _ htpp, upd_same]
    by_cases hfull : (db.mem rid.page).count = (db.mem tpId).cap
    · rw [if_pos hfull]
      simp only [upd_ne _ _ _ hq1, upd_ne _ _ _ hq2]
    · rw [if_neg hfull]
      simp only [upd_ne _ _ _ hq1, upd_ne _ _ _ hq2]

/-- `deallocate_data_slot` on a live slot of a ring page preserves the heap
invariant: the page joins the has-free chain exactly when it was full. -/
theorem deallocateDataSlot_inv (db : Db) (tpId : Nat) (ring chain : List Nat) (rid : Rid)
    (hInv : SlotInv db tpId ring chain)
    (hpr : rid.page ∈ ring)
    (hslt : rid.slot < (db.mem tpId).cap)
    (hbit : slotBit (db.mem rid.page).used rid.slot = true) :
    ∃ db2, deallocateDataSlot db tpId rid = some db2 ∧
      SlotInv db2 tpId ring (if rid.page ∈ chain then chain else rid.page :: chain) := by
  have htpring : tpId ∉ ring := (List.nodup_cons.mp hInv.nodup).1
  have hptp : rid.page ≠ tpId := fun h => htpring (h ▸ hpr)
  have hpne32 : rid.page ≠ NONE32 := hInv.ringNe _ hpr
  have hs32 : rid.slot < 32 * bsWords (db.mem tpId).cap :=
    lt_of_lt_of_le hslt (cap_le_32_bsWords _)
  have hcnt := hInv.counts rid.page hpr
  have hpop := popTotal_clear (db.mem rid.page).used (bsWords (db.mem tpId).cap)
    rid.slot hs32 hbit
  obtain ⟨db2, heq, hfullc, hnotc, hframe⟩ := deallocateDataSlot_char db tpId rid hbit hptp
  refine ⟨db2, heq, ?_⟩
  by_cases hin : rid.page ∈ chain
  · -- the page was on the chain (count < cap): it stays, the chain is unchanged
    have hlt : (db.mem rid.page).count < (db.mem tpId).cap := hInv.chainLt _ hin
    obtain ⟨hm2p, hm2tp⟩ := hnotc (by omega)
    rw [if_pos hin]
    have hused2 : (db2.mem rid.page).used =
        upd (db.mem rid.page).used (rid.slot / 32)
          ((db.mem rid.page).used (rid.slot / 32) &&&
            (wordFull ^^^ 1 <<< (rid.slot % 32))) := by rw [hm2p]
    have hcount2 : (db2.mem rid.page).count = (db.mem rid.page).count - 1 := by rw [hm2p]
    have hnext2 : (db2.mem rid.page).next = (db.mem rid.page).next := by rw [hm2p]
    have hprev2 : (db2.mem rid.page).prev = (db.mem rid.page).prev := by rw [hm2p]
    have hnf2 : (db2.mem rid.page).nextFree = (db.mem rid.page).nextFree := by rw [hm2p]
    refine ⟨hInv.nodup, hInv.ringNe, ?_, ?_, ?_, ?_, hInv.chainSub, hInv.chainNd,
      ?_, ?_, ?_, ?_, ?_⟩
    · rw [hm2tp]
      exact hInv.capPos
    · unfold ringNext
      rw [hm2tp]
      refine path_congr ?_ hInv.ringN
      intro p hp
      show (db2.mem p).next = (db.mem p).next
      by_cases hpf : p = rid.page
      · rw [hpf]
        exact hnext2
      · rw [hframe p hpf (fun hcon => htpring (hcon ▸ hp))]
    · unfold ringPrev
      rw [hm2tp]
      refine path_congr ?_ hInv.ringP
      intro p hp
      have hpr2 : p ∈ ring := List.mem_reverse.mp hp
      show (db2.mem p).prev = (db.mem p).prev
      by_cases hpf : p = rid.page
      · rw [hpf]
        exact hprev2
      · rw [hframe p hpf (fun hcon => htpring (hcon ▸ hpr2))]
    · unfold chainOf
      rw [hm2tp]
      refine path_congr ?_ hInv.chainP
      intro p hp
      show (db2.mem p).nextFree = (db.mem p).nextFree
      by_cases hpf : p = rid.page
      · rw [hpf]
        exact hnf2
      · rw [hframe p hpf (fun hcon => htpring (hcon ▸ hInv.chainSub hp))]
    · intro p hp i hi
      rw [hm2tp] at hi
      by_cases hpf : p = rid.page
      · rw [hpf, hused2]
        by_cases hiw : i = rid.slot / 32
        · subst hiw
          rw [upd_same]
          exact Nat.lt_of_le_of_lt Nat.and_le_left
            (hInv.words rid.page hpr _ hi)
        · rw [upd_ne _ _ _ hiw]
          exact hInv.words rid.page hpr i hi
      · rw [hframe p hpf (fun hcon => htpring (hcon ▸ hp))]
        exact hInv.words p hp i hi
    · intro p hp pos hpos hcaple
      rw [hm2tp] at hpos hcaple
      by_cases hpf : p = rid.page
      · rw [hpf, hused2, slotBit_clear]
        simp [hInv.invalid rid.page hpr pos hpos hcaple]
      · rw [hframe p hpf (fun hcon => htpring (hcon ▸ hp))]
        exact hInv.invalid p hp pos hpos hcaple
    · intro p hp
      rw [hm2tp]
      by_cases hpf : p = rid.page
      · rw [hpf, hcount2, hused2]
        omega
      · rw [hframe p hpf (fun hcon => htpring (hcon ▸ hp))]
        exact hInv.counts p hp
    · intro p hp
      rw [hm2tp]
      by_cases hpf : p = rid.page
      · rw [hpf, hcount2]
        omega
      · rw [hframe p hpf (fun hcon => htpring (hcon ▸ hInv.chainSub hp))]
        exact hInv.chainLt p hp
    · intro p hp hnc
      rw [hm2tp]
      have hpf : p ≠ rid.page := fun hcon => hnc (hcon ▸ hin)
      rw [hframe p hpf (fun hcon => htpring (hcon ▸ hp))]
      exact hInv.fullEq p hp hnc
  · -- the page was full: it is pushed onto the chain
    have hfull : (db.mem rid.page).count = (db.mem tpId).cap := hInv.fullEq _ hpr hin
    obtain ⟨hm2p, hm2tp⟩ := hfullc hfull
    rw [if_neg hin]
    have hused2 : (db2.mem rid.page).used =
        upd (db.mem rid.page).used (rid.slot / 32)
          ((db.mem rid.page).used (rid.slot / 32) &&&
            (wordFull ^^^ 1 <<< (rid.slot % 32))) := by rw [hm2p]
    have hcount2 : (db2.mem rid.page).count = (db.mem rid.page).count - 1 := by rw [hm2p]
    have hnext2 : (db2.mem rid.page).next = (db.mem rid.page).next := by rw [hm2p]
    have hprev2 : (db2.mem rid.page).prev = (db.mem rid.page).prev := by rw [hm2p]
    have hnf2 : (db2.mem rid.page).nextFree = (db.mem tpId).tFirstFree := by rw [hm2p]
    have hBn : (db2.mem tpId).next = (db.mem tpId).next := by rw [hm2tp]
    have hBp : (db2.mem tpId).prev = (db.mem tpId).prev := by rw [hm2tp]
    have hBcap : (db2.mem tpId).cap = (db.mem tpId).cap := by rw [hm2tp]
    have hBff : (db2.mem tpId).tFirstFree = rid.page := by rw [hm2tp]
    refine ⟨hInv.nodup, hInv.ringNe, ?_, ?_, ?_, ?_, ?_, ?_, ?_, ?_, ?_, ?_, ?_⟩
    · rw [hBcap]
      exact hInv.capPos
    · unfold ringNext
      rw [hBn]
      refine path_congr ?_ hInv.ringN
      intro p hp
      show (db2.mem p).next = (db.mem p).next
      by_cases hpf : p = rid.page
      · rw [hpf]
        exact hnext2
      · rw [hframe p hpf (fun hcon => htpring (hcon ▸ hp))]
    · unfold ringPrev
      rw [hBp]
      refine path_congr ?_ hInv.ringP
      intro p hp
      have hpr2 : p ∈ ring := List.mem_reverse.mp hp
      show (db2.mem p).prev = (db.mem p).prev
      by_cases hpf : p = rid.page
      · rw [hpf]
        exact hprev2
      · rw [hframe p hpf (fun hcon => htpring (hcon ▸ hpr2))]
    · unfold chainOf
      rw [hBff]
      refine Path.cons hpne32 ?_
      rw [hm2p]
      refine path_congr ?_ hInv.chainP
      intro p hp
      have hppage : p ≠ rid.page := fun hcon => hin (hcon ▸ hp)
      show (db2.mem p).nextFree = (db.mem p).nextFree
      rw [hframe p hppage (fun hcon => htpring (hcon ▸ hInv.chainSub hp))]
    · intro q hq
      rcases List.mem_cons.mp hq with h | h
      · rw [h]
        exact hpr
      · exact hInv.chainSub h
    · exact List.nodup_cons.mpr ⟨hin, hInv.chainNd⟩
    · intro p hp i hi
      rw [hBcap] at hi
      by_cases hpf : p = rid.page
      · rw [hpf, hused2]
        by_cases hiw : i = rid.slot / 32
        · subst hiw
          rw [upd_same]
          exact Nat.lt_of_le_of_lt Nat.and_le_left
            (hInv.words rid.page hpr _ hi)
        · rw [upd_ne _ _ _ hiw]
          exact hInv.words rid.page hpr i hi
      · rw [hframe p hpf (fun hcon => htpring (hcon ▸ hp))]
        exact hInv.words p hp i hi
    · intro p hp pos hpos hcaple
      rw [hBcap] at hpos hcaple
      by_cases hpf : p = rid.page
      · rw [hpf, hused2, slotBit_clear]
        simp [hInv.invalid rid.page hpr pos hpos hcaple]
      · rw [hframe p hpf (fun hcon => htpring (hcon ▸ hp))]
        exact hInv.invalid p hp pos hpos hcaple
    · intro p hp
      rw [hBcap]
      by_cases hpf : p = rid.page
      · rw [hpf, hcount2, hused2]
        omega
      · rw [hframe p hpf (fun hcon => htpring (hcon ▸ hp))]
        exact hInv.counts p hp
    · intro p hp
      rw [hBcap]
      rcases List.mem_cons.mp hp with h | h
      · rw [h, hcount2]
        have := hInv.capPos
        omega
      · have hppage : p ≠ rid.page := fun hcon => hin (hcon ▸ h)
        rw [hframe p hppage (fun hcon => htpring (hcon ▸ hInv.chainSub h))]
        exact hInv.chainLt p h
    · intro p hp hnc
      rw [hBcap]
      have hppage : p ≠ rid.page := fun hcon => hnc (by rw [hcon]; simp)
      have hpchain : p ∉ chain := fun hcon => hnc (by simp [hcon])
      rw [hframe p hppage (fun hcon => htpring (hcon ▸ hp))]
      exact hInv.fullEq p hp hpchain

/-- A concrete one-table heap used to exercise the C8 invariant: table page 1
with `cap = 1`, a single full data page 2 (slot 0 live, `count = 1`), and an
empty has-free chain. -/
def cDb8 : Db :=
  { pages := 3, firstFree := NONE32, tableNum := 1, tables := fun _ => defTI,
    mem := fun n =>
      if n = 1 then
        { defPage with prev := 2, next := 2, cap := 1, tFirstFree := NONE32 }
      else if n = 2 then
        { defPage with prev := 1, next := 1, nextFree := NONE32,
                       used := fun i => if i = 0 then 1 else 0, count := 1 }
      else defPage }

/-- `cDb8` satisfies the slot-chain invariant with ring `[2]` and empty chain. -/
theorem cInv8 : SlotInv cDb8 1 [2] [] :=
  ⟨by decide, by decide, by decide,
   Path.cons (by decide) Path.nil,
   Path.cons (by decide) Path.nil,
   Path.nil,
   List.nil_subset _, List.nodup_nil,
   by decide, by decide, by decide,
   by decide, by decide⟩

/-- C8: the has-free-chain invariant — every data page on the table's
`tp.first_free`/`next_free` chain has `count < cap` and every ring page off the
chain has `count = cap` (together with the ring/chain shape facts bundled in
`SlotInv`) — is preserved by `allocate_data_slot` (which may first grow the
ring by a fresh page) and by `deallocate_data_slot` on a live slot. -/
theorem c8_slot_chain_invariant :
    (∀ db tpId ring chain, SlotInv db tpId ring chain → allocFresh db tpId ring →
      ∃ db2 rid ring2 chain2, allocateDataSlot db tpId = some (db2, rid) ∧
        SlotInv db2 tpId ring2 chain2) ∧
    (∀ db tpId ring chain rid, SlotInv db tpId ring chain → rid.page ∈ ring →
      rid.slot < (db.mem tpId).cap →
      slotBit (db.mem rid.page).used rid.slot = true →
      ∃ db2 chain2, deallocateDataSlot db tpId rid = some db2 ∧
        SlotInv db2 tpId ring chain2) := by
  constructor
  · intro db tpId ring chain hInv hfresh
    cases chain with
    | nil =>
      have hff : (db.mem tpId).tFirstFree = NONE32 := path_nil_start hInv.chainP
      have hstep : allocateDataSlot db tpId = fillSlot (expandTable db tpId) tpId := by
        unfold allocateDataSlot
        simp only []
        rw [if_pos hff]
      have hInv2 := expandTable_inv db tpId ring hInv hfresh
      obtain ⟨db2, s, hfs, hslt, hInv3⟩ :=
        fillSlot_inv (expandTable db tpId) tpId (allocTarget db)
          (ring ++ [allocTarget db]) [] hInv2
      exact ⟨db2, ⟨allocTarget db, s⟩, ring ++ [allocTarget db], _,
        by rw [hstep]; exact hfs, hInv3⟩
    | cons c0 t =>
      obtain ⟨hstart, hc0ne, -⟩ := path_head hInv.chainP
      have hff : ¬ (db.mem tpId).tFirstFree = NONE32 := by
        rw [hstart]
        exact hc0ne
      have hstep : allocateDataSlot db tpId = fillSlot db tpId := by
        unfold allocateDataSlot
        simp only []
        rw [if_neg hff]
      obtain ⟨db2, s, hfs, hslt, hInv3⟩ := fillSlot_inv db tpId c0 ring t hInv
      exact ⟨db2, ⟨c0, s⟩, ring, _, by rw [hstep]; exact hfs, hInv3⟩
  · intro db tpId ring chain rid hInv hpr hslt hbit
    obtain ⟨db2, heq, hInv2⟩ :=
      deallocateDataSlot_inv db tpId ring chain rid hInv hpr hslt hbit
    exact ⟨db2, _, heq, hInv2⟩

/-- C8 witness: both operations run on the concrete heap `cDb8` — the
allocation grows the ring (the chain is empty) and the deallocation relinks
the full page 2 — and the invariant holds afterwards. -/
theorem c8_slot_chain_invariant_witness :
    (∃ db2 rid ring2 chain2, allocateDataSlot cDb8 1 = some (db2, rid) ∧
        SlotInv db2 1 ring2 chain2) ∧
    (∃ db2 chain2, deallocateDataSlot cDb8 1 ⟨2, 0⟩ = some db2 ∧
        SlotInv db2 1 [2] chain2) :=
  ⟨c8_slot_chain_invariant.1 cDb8 1 [2] [] cInv8 ⟨by decide, by decide⟩,
   c8_slot_chain_invariant.2 cDb8 1 [2] [] ⟨2, 0⟩ cInv8 (by decide) (by decide)
     (by decide)⟩

/-! ## C4: flag propagation through a successful create_table -/

/-- Number of `Primary` constraints in a spec (the code's `primary_cnt`). -/
def primaryConsCount (l : List TableCons) : Nat :=
  l.countP (fun kc => match kc.kind with | .Primary => true | _ => false)

/-- Column `k` is named in a `Primary` constraint (claim-facing form: the
name resolves to position `k` among the declared columns). -/
def primAt (cols : List ColDecl) (l : List TableCons) (k : Nat) : Prop :=
  ∃ kc ∈ l, kc.kind = .Primary ∧ colDeclIdx cols kc.name = some k

/-- The same with the code's defaulted lookup (`get_full` position with
`getD 0`), which is what `apply_cons` actually indexes with. -/
def primAtD (cols : List ColDecl) (l : List TableCons) (k : Nat) : Prop :=
  ∃ kc ∈ l, kc.kind = .Primary ∧ (colDeclIdx cols kc.name).getD 0 = k

theorem primAtD_cons (cols : List ColDecl) (kc : TableCons) (rest : List TableCons)
    (k : Nat) :
    primAtD cols (kc :: rest) k ↔
      ((kc.kind = .Primary ∧ (colDeclIdx cols kc.name).getD 0 = k) ∨
        primAtD cols rest k) := by
  unfold primAtD
  constructor
  · rintro ⟨a, ha, h1, h2⟩
    rcases List.mem_cons.mp ha with h | h
    · subst h
      exact Or.inl ⟨h1, h2⟩
    · exact Or.inr ⟨a, h, h1, h2⟩
  · rintro (⟨h1, h2⟩ | ⟨a, ha, h1, h2⟩)
    · exact ⟨kc, List.mem_cons_self _ _, h1, h2⟩
    · exact ⟨a, List.mem_cons_of_mem _ ha, h1, h2⟩

theorem primAt_iff_primAtD (cols : List ColDecl) (l : List TableCons) (k : Nat)
    (hres : ∀ kc ∈ l, (colDeclIdx cols kc.name).isSome = true) :
    primAt cols l k ↔ primAtD cols l k := by
  unfold primAt primAtD
  constructor
  · rintro ⟨a, ha, h1, h2⟩
    exact ⟨a, ha, h1, by rw [h2]; rfl⟩
  · rintro ⟨a, ha, h1, h2⟩
    obtain ⟨i, hi⟩ := Option.isSome_iff_exists.mp (hres a ha)
    refine ⟨a, ha, h1, ?_⟩
    rw [hi] at h2 ⊢
    simp at h2
    rw [h2]

theorem writeCol_flags (pg : Page) (j : Nat) (co : ColDecl) (off k : Nat) :
    (((writeCol pg j co off).cols k).primary = ((pg.cols k).primary)) ∧
    (((writeCol pg j co off).cols k).unique = ((pg.cols k).unique)) := by
  show ((upd pg.cols j _ k).primary = _) ∧ ((upd pg.cols j _ k).unique = _)
  unfold upd
  by_cases h : k = j
  · subst h
    rw [if_pos rfl]
    exact ⟨rfl, rfl⟩
  · rw [if_neg h]
    exact ⟨rfl, rfl⟩

theorem writeCol_ne (pg : Page) (j : Nat) (co : ColDecl) (off k : Nat)
    (h : k ≠ j) : (writeCol pg j co off).cols k = pg.cols k := by
  show upd pg.cols j _ k = pg.cols k
  exact upd_ne _ _ _ h

theorem writeCol_self (pg : Page) (j : Nat) (co : ColDecl) (off : Nat) :
    (writeCol pg j co off).cols j =
      { pg.cols j with ty := co.ty, off := off, index := NONE32,
                       name := co.name, notnull := co.notnull,
                       foreignTable := NONE8 } := by
  show upd pg.cols j _ j = _
  exact upd_same _ _ _

theorem writeColsAux_flags (cols : List ColDecl) :
    ∀ (pg : Page) (offs : List Nat) (j0 k : Nat),
      (((writeColsAux pg cols offs j0).cols k).primary = (pg.cols k).primary) ∧
      (((writeColsAux pg cols offs j0).cols k).unique = (pg.cols k).unique) := by
  induction cols with
  | nil =>
    intro pg offs j0 k
    exact ⟨rfl, rfl⟩
  | cons co rest ih =>
    intro pg offs j0 k
    unfold writeColsAux
    obtain ⟨h1, h2⟩ := ih (writeCol pg j0 co (offs.getD 0 0)) (offs.drop 1) (j0 + 1) k
    obtain ⟨g1, g2⟩ := writeCol_flags pg j0 co (offs.getD 0 0) k
    exact ⟨h1.trans g1, h2.trans g2⟩

theorem writeColsAux_below (cols : List ColDecl) :
    ∀ (pg : Page) (offs : List Nat) (j0 k : Nat), k < j0 →
      (writeColsAux pg cols offs j0).cols k = pg.cols k := by
  induction cols with
  | nil =>
    intro pg offs j0 k hk
    rfl
  | cons co rest ih =>
    intro pg offs j0 k hk
    unfold writeColsAux
    rw [ih _ _ _ _ (by omega)]
    exact writeCol_ne pg j0 co _ k (by omega)

theorem writeColsAux_index (cols : List ColDecl) :
    ∀ (pg : Page) (offs : List Nat) (j0 k : Nat),
      j0 ≤ k → k < j0 + cols.length →
      ((writeColsAux pg cols offs j0).cols k).index = NONE32 := by
  induction cols with
  | nil =>
    intro pg offs j0 k h1 h2
    simp at h2
    omega
  | cons co rest ih =>
    intro pg offs j0 k h1 h2
    unfold writeColsAux
    by_cases hk : k = j0
    · subst hk
      rw [writeColsAux_below rest _ _ _ _ (by omega), writeCol_self]
    · exact ih _ _ (j0 + 1) k (by omega)
        (by simp only [List.length_cons] at h2; omega)

theorem validateCons_count (db : Db) (cols : List ColDecl) :
    ∀ (l : List TableCons) (acc cnt : Nat),
      validateCons db cols l acc = .ok cnt → cnt = acc + primaryConsCount l := by
  intro l
  induction l with
  | nil =>
    intro acc cnt h
    unfold validateCons at h
    injection h with h2
    simp [primaryConsCount]
    omega
  | cons kc rest ih =>
    intro acc cnt h
    unfold validateCons at h
    cases hidx : colDeclIdx cols kc.name with
    | none =>
      rw [hidx] at h
      exact absurd h (by simp)
    | some idx =>
      rw [hidx] at h
      simp only [] at h
      cases hkind : kc.kind with
      | Primary =>
        rw [hkind] at h
        simp only [] at h
        have h3 := ih (acc + 1) cnt h
        simp [primaryConsCount, List.countP_cons, hkind] at h3 ⊢
        omega
      | Foreign t col =>
        rw [hkind] at h
        simp only [] at h
        cases hcf : checkForeign db (cols.getD idx ⟨"", ⟨.Int, 0⟩, false⟩).ty t col with
        | error e =>
          rw [hcf] at h
          exact absurd h (by simp)
        | ok u =>
          rw [hcf] at h
          simp only [] at h
          have h3 := ih acc cnt h
          simp [primaryConsCount, List.countP_cons, hkind] at h3 ⊢
          omega

theorem validateCons_resolves (db : Db) (cols : List ColDecl) :
    ∀ (l : List TableCons) (acc cnt : Nat),
      validateCons db cols l acc = .ok cnt →
      ∀ kc ∈ l, (colDeclIdx cols kc.name).isSome = true := by
  intro l
  induction l with
  | nil =>
    intro acc cnt h kc hkc
    exact absurd hkc (by simp)
  | cons kc0 rest ih =>
    intro acc cnt h kc hkc
    unfold validateCons at h
    cases hidx : colDeclIdx cols kc0.name with
    | none =>
      rw [hidx] at h
      exact absurd h (by simp)
    | some idx =>
      rw [hidx] at h
      simp only [] at h
      rcases List.mem_cons.mp hkc with he | hm
      · rw [he, hidx]
        rfl
      · cases hkind : kc0.kind with
        | Primary =>
          rw [hkind] at h
          simp only [] at h
          exact ih (acc + 1) cnt h kc hm
        | Foreign t col =>
          rw [hkind] at h
          simp only [] at h
          cases hcf : checkForeign db (cols.getD idx ⟨"", ⟨.Int, 0⟩, false⟩).ty t col with
          | error e =>
            rw [hcf] at h
            exact absurd h (by simp)
          | ok u =>
            rw [hcf] at h
            simp only [] at h
            exact ih acc cnt h kc hm

/-- Every run of `create_table` either fails leaving the state unchanged, or
commits with the primary count produced by the validation loop. -/
theorem createTable_cases (mdb : Nat) (db : Db) (c : CreateTable) :
    (∃ e, createTable mdb db c = (.error e, db)) ∨
    (∃ cnt, validateCons db c.cols c.cons 0 = .ok cnt ∧
      c.cols.length < MAX_COL ∧
      createTable mdb db c = (.ok (), commitTable db c cnt)) := by
  unfold createTable
  by_cases h1 : db.tableNum = MAX_TABLE
  · exact Or.inl ⟨_, by rw [if_pos h1]⟩
  · rw [if_neg h1]
    by_cases h2 : MAX_TABLE_NAME ≤ c.name.length
    · exact Or.inl ⟨_, by rw [if_pos h2]⟩
    · rw [if_neg h2]
      by_cases h3 : (tableNames db).contains c.name
      · exact Or.inl ⟨_, by rw [if_pos h3]⟩
      · rw [if_neg h3]
        by_cases h4 : MAX_COL ≤ c.cols.length
        · exact Or.inl ⟨_, by rw [if_pos h4]⟩
        · rw [if_neg h4]
          cases hcc : checkCols c.cols [] with
          | error e => exact Or.inl ⟨e, rfl⟩
          | ok u =>
            cases hvc : validateCons db c.cols c.cons 0 with
            | error e => exact Or.inl ⟨e, rfl⟩
            | ok cnt =>
              cases hsv : sizeValidate mdb (c.cols.map (fun co => co.ty)) with
              | error e => exact Or.inl ⟨e, rfl⟩
              | ok sz =>
                exact Or.inr ⟨cnt, rfl, by omega, rfl⟩

/-- What the constraint-application loop does to the flags: `index` (and the
pages other than `id`, and the pager fields) are untouched; `primary` and
`notnull` become set exactly on the columns named by a `Primary` constraint;
`unique` additionally requires `primary_cnt = 1`. -/
theorem applyCons_char (cols : List ColDecl) (id : Nat) (primaryCnt : Nat) :
    ∀ (l : List TableCons) (db : Db),
      (applyCons db id cols primaryCnt l).pages = db.pages ∧
      (applyCons db id cols primaryCnt l).firstFree = db.firstFree ∧
      (∀ p, p ≠ id → (applyCons db id cols primaryCnt l).mem p = db.mem p) ∧
      ((applyCons db id cols primaryCnt l).mem id).colNum = (db.mem id).colNum ∧
      (∀ k,
        (((applyCons db id cols primaryCnt l).mem id).cols k).index =
          ((db.mem id).cols k).index ∧
        ((((applyCons db id cols primaryCnt l).mem id).cols k).primary = true ↔
          (((db.mem id).cols k).primary = true ∨ primAtD cols l k)) ∧
        ((((applyCons db id cols primaryCnt l).mem id).cols k).notnull = true ↔
          (((db.mem id).cols k).notnull = true ∨ primAtD cols l k)) ∧
        ((((applyCons db id cols primaryCnt l).mem id).cols k).unique = true ↔
          (((db.mem id).cols k).unique = true ∨
            (primaryCnt = 1 ∧ primAtD cols l k)))) := by
  intro l
  induction l with
  | nil =>
    intro db
    refine ⟨rfl, rfl, fun p hp => rfl, rfl, fun k => ⟨rfl, ?_, ?_, ?_⟩⟩
    all_goals simp [primAtD, applyCons]
  | cons kc rest ih =>
    intro db
    cases hkind : kc.kind with
    | Primary =>
      set idx := (colDeclIdx cols kc.name).getD 0 with hidx
      set ciP : ColInfo := { (db.mem id).cols idx with
        primary := true, notnull := true,
        unique := if primaryCnt = 1 then true
          else ((db.mem id).cols idx).unique } with hci
      set db2 : Db :=
        { db with mem := upd db.mem id (updCol (db.mem id) idx ciP) } with hdb2
      have hstep : applyCons db id cols primaryCnt (kc :: rest) =
          applyCons db2 id cols primaryCnt rest := by
        conv_lhs => unfold applyCons
        rw [hkind]
      obtain ⟨ihp, ihf, ihfr, ihcn, ihcols⟩ := ih db2
      have hmem2 : db2.mem id = updCol (db.mem id) idx ciP := by
        rw [hdb2]
        exact upd_same _ _ _
      have hcols2 : ∀ k, (db2.mem id).cols k =
          if k = idx then ciP else (db.mem id).cols k := by
        intro k
        rw [hmem2]
        show upd (db.mem id).cols idx ciP k = _
        unfold upd
        rfl
      rw [hstep]
      refine ⟨?_, ?_, ?_, ?_, fun k => ?_⟩
      · rw [ihp, hdb2]
      · rw [ihf, hdb2]
      · intro p hp
        rw [ihfr p hp, hdb2]
        show upd db.mem id _ p = db.mem p
        exact upd_ne _ _ _ hp
      · rw [ihcn, hmem2]
        rfl
      · obtain ⟨ik, pk, nk, uk⟩ := ihcols k
        by_cases hkidx : k = idx
        · subst hkidx
          refine ⟨?_, ?_, ?_, ?_⟩
          · rw [ik, hcols2 idx, if_pos rfl, hci]
          · rw [pk, primAtD_cons]
            have hdp : ((db2.mem id).cols idx).primary = true := by
              rw [hcols2 idx, if_pos rfl, hci]
            constructor
            · intro h
              exact Or.inr (Or.inl ⟨hkind, hidx.symm⟩)
            · intro h
              exact Or.inl hdp
          · rw [nk, primAtD_cons]
            have hdn : ((db2.mem id).cols idx).notnull = true := by
              rw [hcols2 idx, if_pos rfl, hci]
            constructor
            · intro h
              exact Or.inr (Or.inl ⟨hkind, hidx.symm⟩)
            · intro h
              exact Or.inl hdn
          · rw [uk, primAtD_cons]
            have hdu : ((db2.mem id).cols idx).unique =
                (if primaryCnt = 1 then true else ((db.mem id).cols idx).unique) := by
              rw [hcols2 idx, if_pos rfl, hci]
            rw [hdu]
            by_cases hcnt : primaryCnt = 1
            · rw [if_pos hcnt]
              constructor
              · intro h
                exact Or.inr ⟨hcnt, Or.inl ⟨hkind, hidx.symm⟩⟩
              · intro h
                exact Or.inl rfl
            · rw [if_neg hcnt]
              constructor
              · rintro (h | ⟨h1, h2⟩)
                · exact Or.inl h
                · exact absurd h1 hcnt
              · rintro (h | ⟨h1, h2⟩)
                · exact Or.inl h
                · exact absurd h1 hcnt
        · have hdk : (db2.mem id).cols k = (db.mem id).cols k := by
            rw [hcols2 k, if_neg hkidx]
          refine ⟨?_, ?_, ?_, ?_⟩
          · rw [ik, hdk]
          · rw [pk, hdk, primAtD_cons]
            constructor
            · rintro (h | h)
              · exact Or.inl h
              · exact Or.inr (Or.inr h)
            · rintro (h | (⟨h1, h2⟩ | h))
              · exact Or.inl h
              · exact absurd (hidx.trans h2).symm hkidx
              · exact Or.inr h
          · rw [nk, hdk, primAtD_cons]
            constructor
            · rintro (h | h)
              · exact Or.inl h
              · exact Or.inr (Or.inr h)
            · rintro (h | (⟨h1, h2⟩ | h))
              · exact Or.inl h
              · exact absurd (hidx.trans h2).symm hkidx
              · exact Or.inr h
          · rw [uk, hdk, primAtD_cons]
            constructor
            · rintro (h | ⟨h1, h2⟩)
              · exact Or.inl h
              · exact Or.inr ⟨h1, Or.inr h2⟩
            · rintro (h | ⟨h1, (⟨g1, g2⟩ | h2)⟩)
              · exact Or.inl h
              · exact absurd (hidx.trans g2).symm hkidx
              · exact Or.inr ⟨h1, h2⟩
    | Foreign t fcol =>
      set idx := (colDeclIdx cols kc.name).getD 0 with hidx
      set fTiIdx := (getTiIdx db t).getD 0 with hfti
      set fTp := db.mem (db.tables fTiIdx).meta with hftp
      set fCiIdx := (colIdxIn fTp fcol).getD 0 with hfci
      set ciF : ColInfo := { (db.mem id).cols idx with
        foreignTable := fTiIdx, foreignCol := fCiIdx } with hci
      set db2 : Db :=
        { db with mem := upd db.mem id (updCol (db.mem id) idx ciF) } with hdb2
      have hstep : applyCons db id cols primaryCnt (kc :: rest) =
          applyCons db2 id cols primaryCnt rest := by
        conv_lhs => unfold applyCons
        rw [hkind]
      obtain ⟨ihp, ihf, ihfr, ihcn, ihcols⟩ := ih db2
      have hmem2 : db2.mem id = updCol (db.mem id) idx ciF := by
        rw [hdb2]
        exact upd_same _ _ _
      have hcols2 : ∀ k, (db2.mem id).cols k =
          if k = idx then ciF else (db.mem id).cols k := by
        intro k
        rw [hmem2]
        show upd (db.mem id).cols idx ciF k = _
        unfold upd
        rfl
      have hhead : ∀ (P : Prop), (kc.kind = .Primary ∧ P) → False := by
        intro P h
        rw [hkind] at h
        exact absurd h.1 (by simp)
      have hdk : ∀ k,
          (((db2.mem id).cols k).index = ((db.mem id).cols k).index) ∧
          (((db2.mem id).cols k).primary = ((db.mem id).cols k).primary) ∧
          (((db2.mem id).cols k).notnull = ((db.mem id).cols k).notnull) ∧
          (((db2.mem id).cols k).unique = ((db.mem id).cols k).unique) := by
        intro k
        rw [hcols2 k]
        by_cases hkidx : k = idx
        · rw [if_pos hkidx, hci, hkidx]
          exact ⟨rfl, rfl, rfl, rfl⟩
        · rw [if_neg hkidx]
          exact ⟨rfl, rfl, rfl, rfl⟩
      rw [hstep]
      refine ⟨?_, ?_, ?_, ?_, fun k => ?_⟩
      · rw [ihp, hdb2]
      · rw [ihf, hdb2]
      · intro p hp
        rw [ihfr p hp, hdb2]
        show upd db.mem id _ p = db.mem p
        exact upd_ne _ _ _ hp
      · rw [ihcn, hmem2]
        rfl
      · obtain ⟨ik, pk, nk, uk⟩ := ihcols k
        obtain ⟨dk1, dk2, dk3, dk4⟩ := hdk k
        refine ⟨ik.trans dk1, ?_, ?_, ?_⟩
        · rw [pk, dk2, primAtD_cons]
          constructor
          · rintro (h | h)
            · exact Or.inl h
            · exact Or.inr (Or.inr h)
          · rintro (h | (hh | h))
            · exact Or.inl h
            · exact (hhead _ hh).elim
            · exact Or.inr h
        · rw [nk, dk3, primAtD_cons]
          constructor
          · rintro (h | h)
            · exact Or.inl h
            · exact Or.inr (Or.inr h)
          · rintro (h | (hh | h))
            · exact Or.inl h
            · exact (hhead _ hh).elim
            · exact Or.inr h
        · rw [uk, dk4, primAtD_cons]
          constructor
          · rintro (h | ⟨h1, h2⟩)
            · exact Or.inl h
            · exact Or.inr ⟨h1, Or.inr h2⟩
          · rintro (h | ⟨h1, (hh | h2)⟩)
            · exact Or.inl h
            · exact (hhead _ hh).elim
            · exact Or.inr ⟨h1, h2⟩

/-- What `create_index_impl` does under an empty free list: the file grows by
one page, the column's index root becomes the fresh page id, and every other
column of the table page is untouched. -/
theorem createIndexImpl_char (db : Db) (id k : Nat)
    (hff : db.firstFree = NONE32) (hid : id < db.pages) :
    (createIndexImpl db id k).firstFree = NONE32 ∧
    (createIndexImpl db id k).pages = db.pages + 1 ∧
    ((createIndexImpl db id k).mem id).cols k =
      { (db.mem id).cols k with index := db.pages } ∧
    (∀ j, j ≠ k → ((createIndexImpl db id k).mem id).cols j = (db.mem id).cols j) ∧
    ((createIndexImpl db id k).mem id).colNum = (db.mem id).colNum := by
  have hcond : ¬ db.firstFree ≠ NONE32 := by simp [hff]
  have hidne : id ≠ db.pages := by omega
  set P : Page := updCol (db.mem id) k
    { (db.mem id).cols k with index := db.pages } with hP
  set M1 := upd db.mem id P with hM1
  set db2 : Db := ({ db with
      pages := db.pages + 1,
      mem := upd M1 db.pages { M1 db.pages with leaf := true, icount := 0 } } : Db) with hdb2
  have heq : createIndexImpl db id k = db2 := by
    unfold createIndexImpl allocatePage
    rw [if_neg hcond]
  have hmem : db2.mem id = P := by
    rw [hdb2]
    show upd M1 db.pages _ id = P
    rw [upd_ne _ _ _ hidne, hM1]
    exact upd_same _ _ _
  rw [heq]
  refine ⟨?_, rfl, ?_, ?_, ?_⟩
  · rw [hdb2]
    exact hff
  · rw [hmem, hP]
    show upd (db.mem id).cols k _ k = _
    exact upd_same _ _ _
  · intro j hj
    rw [hmem, hP]
    show upd (db.mem id).cols k _ j = _
    exact upd_ne _ _ _ hj
  · rw [hmem, hP]
    rfl

/-- The closing index-creation loop: it never changes the PRIMARY / NOTNULL /
UNIQUE flags, leaves the columns below the loop window alone, and gives every
UNIQUE column in the window a non-`!0` index root. -/
theorem createUniqueIdx_char (rest : Nat) :
    ∀ (db : Db) (id k : Nat),
      db.firstFree = NONE32 → id < db.pages → db.pages + rest ≤ NONE32 →
      ∀ j,
        (((createUniqueIdx db id k rest).mem id).cols j).primary =
          ((db.mem id).cols j).primary ∧
        (((createUniqueIdx db id k rest).mem id).cols j).notnull =
          ((db.mem id).cols j).notnull ∧
        (((createUniqueIdx db id k rest).mem id).cols j).unique =
          ((db.mem id).cols j).unique ∧
        (j < k → (((createUniqueIdx db id k rest).mem id).cols j).index =
          ((db.mem id).cols j).index) ∧
        (k ≤ j → j < k + rest → ((db.mem id).cols j).unique = true →
          (((createUniqueIdx db id k rest).mem id).cols j).index ≠ NONE32) := by
  induction rest with
  | zero =>
    intro db id k hff hid hb j
    exact ⟨rfl, rfl, rfl, fun h => rfl, fun h1 h2 => by omega⟩
  | succ rest ih =>
    intro db id k hff hid hb j
    by_cases hu : ((db.mem id).cols k).unique = true
    · obtain ⟨hf1, hp1, hck, hcj, hcn⟩ := createIndexImpl_char db id k hff hid
      set db1 := createIndexImpl db id k with hdb1
      have hstep : createUniqueIdx db id k (rest + 1) =
          createUniqueIdx db1 id (k + 1) rest := by
        conv_lhs => unfold createUniqueIdx
        rw [if_pos hu]
      have hid1 : id < db1.pages := by
        rw [hp1]
        omega
      have hb1 : db1.pages + rest ≤ NONE32 := by
        rw [hp1]
        omega
      rw [hstep]
      have hflag : ∀ j2,
          (((db1.mem id).cols j2).primary = ((db.mem id).cols j2).primary) ∧
          (((db1.mem id).cols j2).notnull = ((db.mem id).cols j2).notnull) ∧
          (((db1.mem id).cols j2).unique = ((db.mem id).cols j2).unique) := by
        intro j2
        by_cases hj2 : j2 = k
        · rw [hj2, hck]
          exact ⟨rfl, rfl, rfl⟩
        · rw [hcj j2 hj2]
          exact ⟨rfl, rfl, rfl⟩
      obtain ⟨i1, i2, i3, i4, i5⟩ := ih db1 id (k + 1) hf1 hid1 hb1 j
      obtain ⟨f1, f2, f3⟩ := hflag j
      refine ⟨i1.trans f1, i2.trans f2, i3.trans f3, ?_, ?_⟩
      · intro hjk
        rw [i4 (by omega), hcj j (by omega)]
      · intro hj1 hj2 hju
        by_cases hjk : j = k
        · obtain ⟨g1, g2, g3, g4, g5⟩ := ih db1 id (k + 1) hf1 hid1 hb1 k
          rw [hjk, g4 (by omega), hck]
          show db.pages ≠ NONE32
          omega
        · refine i5 (by omega) (by omega) ?_
          rw [f3]
          exact hju
    · have hstep : createUniqueIdx db id k (rest + 1) =
          createUniqueIdx db id (k + 1) rest := by
        conv_lhs => unfold createUniqueIdx
        rw [if_neg hu]
      rw [hstep]
      obtain ⟨i1, i2, i3, i4, i5⟩ := ih db id (k + 1) hff hid (by omega) j
      refine ⟨i1, i2, i3, ?_, ?_⟩
      · intro hjk
        exact i4 (by omega)
      · intro hj1 hj2 hju
        by_cases hjk : j = k
        · rw [hjk] at hju
          exact absurd hju hu
        · exact i5 (by omega) (by omega) hju

/-- C4 (amended): after every successful `create_table` on a state with an
empty free-page list, room below the `!0` page sentinel, and no stale
PRIMARY/UNIQUE flag bits on the page about to be allocated (`flags.set`
writes single bits, so a recycled page's stale bits would survive), every
column named in a `Primary` constraint has PRIMARY and NOTNULL set; a column
carries UNIQUE iff it is named by a `Primary` constraint and the spec
contains exactly one `Primary` *constraint* (the code counts constraints,
not distinct primary columns); and every UNIQUE column receives an index
root. -/
theorem c4_amended_flags (mdb : Nat) (db : Db) (c : CreateTable)
    (hok : (createTable mdb db c).1 = .ok ())
    (hff : db.firstFree = NONE32)
    (hbound : db.pages + MAX_COL < NONE32)
    (hclean : ∀ k, ((db.mem db.pages).cols k).primary = false ∧
        ((db.mem db.pages).cols k).unique = false) :
    ∀ j, j < c.cols.length →
      (primAt c.cols c.cons j →
        ((((createTable mdb db c).2).mem db.pages).cols j).primary = true ∧
        ((((createTable mdb db c).2).mem db.pages).cols j).notnull = true) ∧
      (((((createTable mdb db c).2).mem db.pages).cols j).unique = true ↔
        (primAt c.cols c.cons j ∧ primaryConsCount c.cons = 1)) ∧
      (((((createTable mdb db c).2).mem db.pages).cols j).unique = true →
        ((((createTable mdb db c).2).mem db.pages).cols j).index ≠ NONE32) := by
  intro j hj
  rcases createTable_cases mdb db c with ⟨e, hE⟩ | ⟨cnt, hvc, hlen, hE⟩
  · rw [hE] at hok
    exact absurd hok (by simp)
  · have hcntv : cnt = primaryConsCount c.cons := by
      have h := validateCons_count db c.cols c.cons 0 cnt hvc
      omega
    have hres := validateCons_resolves db c.cols c.cons 0 cnt hvc
    have hstate : (createTable mdb db c).2 = commitTable db c cnt := by
      rw [hE]
    rw [hstate]
    have hone : ¬ db.firstFree ≠ NONE32 := by simp [hff]
    set id := db.pages with hiddef
    set tys := c.cols.map (fun co => co.ty) with htys
    set pg1 : Page := writeColsAux (db.mem id) c.cols (layoutOffs tys) 0 with hpg1
    set pg2 : Page :=
      tpInit pg1 id (max (layoutSize tys) MIN_SLOT_SIZE) c.cols.length with hpg2
    set db1 : Db := ({ db with pages := id + 1 } : Db) with hdb1
    set db2 : Db := ({ db1 with mem := upd db1.mem id pg2 } : Db) with hdb2
    set db3 : Db := applyCons db2 id c.cols cnt c.cons with hdb3
    set db4 : Db := ({ db3 with
        tables := upd db3.tables db3.tableNum { meta := id, name := c.name },
        tableNum := db3.tableNum + 1 } : Db) with hdb4
    have hcm : commitTable db c cnt = createUniqueIdx db4 id 0 ((db4.mem id).colNum) := by
      unfold commitTable allocatePage
      rw [if_neg hone]
    have hm2 : db2.mem id = pg2 := by
      rw [hdb2]
      exact upd_same _ _ _
    obtain ⟨hcp, hcf, hcfr, hccoln, hccols⟩ := applyCons_char c.cols id cnt c.cons db2
    have hflags2 : ∀ k, ((db2.mem id).cols k).primary = false ∧
        ((db2.mem id).cols k).unique = false := by
      intro k
      have hcolspg : (db2.mem id).cols k = pg1.cols k := by
        rw [hm2, hpg2]
        rfl
      rw [hcolspg, hpg1]
      obtain ⟨w1, w2⟩ := writeColsAux_flags c.cols (db.mem id) (layoutOffs tys) 0 k
      rw [w1, w2]
      exact hclean k
    have hidx2 : ∀ k, k < c.cols.length → ((db2.mem id).cols k).index = NONE32 := by
      intro k hk
      have hcolspg : (db2.mem id).cols k = pg1.cols k := by
        rw [hm2, hpg2]
        rfl
      rw [hcolspg, hpg1]
      exact writeColsAux_index c.cols (db.mem id) (layoutOffs tys) 0 k (by omega)
        (by omega)
    have h4coln : (db4.mem id).colNum = c.cols.length := by
      have h := hccoln
      rw [hm2] at h
      have hp2 : pg2.colNum = c.cols.length := by
        rw [hpg2]
        rfl
      exact h.trans hp2
    have h4flags : ∀ k,
        (((db4.mem id).cols k).primary = true ↔ primAtD c.cols c.cons k) ∧
        (((db4.mem id).cols k).notnull = true ↔
          (((db2.mem id).cols k).notnull = true ∨ primAtD c.cols c.cons k)) ∧
        (((db4.mem id).cols k).unique = true ↔ (cnt = 1 ∧ primAtD c.cols c.cons k)) ∧
        (k < c.cols.length → ((db4.mem id).cols k).index = NONE32) := by
      intro k
      obtain ⟨ik, pk, nk, uk⟩ := hccols k
      obtain ⟨z1, z2⟩ := hflags2 k
      refine ⟨?_, ?_, ?_, ?_⟩
      · have h := pk
        rw [z1] at h
        simp only [Bool.false_eq_true, false_or] at h
        exact h
      · exact nk
      · have h := uk
        rw [z2] at h
        simp only [Bool.false_eq_true, false_or] at h
        exact h
      · intro hk
        exact ik.trans (hidx2 k hk)
    have hff4 : db4.firstFree = NONE32 := by
      have h : db4.firstFree = db2.firstFree := hcf
      rw [h]
      exact hff
    have hid4 : id < db4.pages := by
      have h : db4.pages = db2.pages := hcp
      rw [h]
      show id < id + 1
      omega
    have hb4 : db4.pages + c.cols.length ≤ NONE32 := by
      have h : db4.pages = db2.pages := hcp
      rw [h]
      show id + 1 + c.cols.length ≤ NONE32
      omega
    obtain ⟨u1, u2, u3, u4, u5⟩ := createUniqueIdx_char c.cols.length db4 id 0
      hff4 hid4 hb4 j
    obtain ⟨p4, n4, q4, x4⟩ := h4flags j
    have hbridge := primAt_iff_primAtD c.cols c.cons j hres
    rw [hcm, h4coln]
    refine ⟨?_, ?_, ?_⟩
    · intro hprim
      have hD := hbridge.mp hprim
      constructor
      · rw [u1]
        exact p4.mpr hD
      · rw [u2]
        exact n4.mpr (Or.inr hD)
    · rw [u3]
      constructor
      · intro h
        obtain ⟨hc1, hc2⟩ := q4.mp h
        exact ⟨hbridge.mpr hc2, by omega⟩
      · rintro ⟨hP, hC⟩
        exact q4.mpr ⟨by omega, hbridge.mp hP⟩
    · intro hu
      rw [u3] at hu
      exact u5 (by omega) (by omega) hu

/-- Witness for the amended C4: `parent(pk INT, PRIMARY KEY pk)` created on
the fresh database — `pk` ends up PRIMARY, NOTNULL, UNIQUE and indexed. -/
theorem c4_amended_flags_witness :
    (primAt parentSpec.cols parentSpec.cons 0 →
      (((createTable MDB dbNew parentSpec).2.mem dbNew.pages).cols 0).primary = true ∧
      (((createTable MDB dbNew parentSpec).2.mem dbNew.pages).cols 0).notnull = true) ∧
    ((((createTable MDB dbNew parentSpec).2.mem dbNew.pages).cols 0).unique = true ↔
      (primAt parentSpec.cols parentSpec.cons 0 ∧
        primaryConsCount parentSpec.cons = 1)) ∧
    ((((createTable MDB dbNew parentSpec).2.mem dbNew.pages).cols 0).unique = true →
      (((createTable MDB dbNew parentSpec).2.mem dbNew.pages).cols 0).index ≠ NONE32) :=
  c4_amended_flags MDB dbNew parentSpec (by decide) rfl (by decide)
    (fun k => ⟨rfl, rfl⟩) 0 (by decide)

end DbSpec
